import Mathlib

/-!
Shallow embedding of the GraphQL lexical scanner of this repository
(crates/apollo-parser/src/lexer/mod.rs and cursor.rs).

The active scanner is `Cursor::new_advance`, driven by `Lexer::new` until an
`Eof` token is produced.  The cursor works on byte offsets into a UTF-8
buffer; we model the input as a `List Char` and compute byte offsets with
`Char.utf8Size`.  Rust's `&str` slicing panics when an offset is not a
character boundary (or out of range); every slicing operation here returns
an `Option` whose `none` models that panic, and the scanner propagates it
as `Scanned.panicked`.

`Token`, `TokenKind` and `Error` live in files of this repository that are
not part of the given sources (token.rs, token_kind.rs, the Error type);
they are modelled from the spec, see their doc comments.
-/

namespace ApolloLexer

/-- Char class from mod.rs `is_whitespace`. -/
def is_whitespace (c : Char) : Bool :=
  c == '\u0009' || c == '\u000A' || c == '\u000B' || c == '\u000C' ||
  c == '\u000D' || c == ' ' || c == '\uFEFF' || c == '\u0085' ||
  c == '\u200E' || c == '\u200F' || c == '\u2028' || c == '\u2029'

/-- Char class from mod.rs `is_ident_char`. -/
def is_ident_char (c : Char) : Bool :=
  (decide ('a' ≤ c ∧ c ≤ 'z')) || (decide ('A' ≤ c ∧ c ≤ 'Z')) || c == '_'

/-- Char class from mod.rs `is_line_terminator`. -/
def is_line_terminator (c : Char) : Bool :=
  c == '\n' || c == '\r'

/-- Char class from mod.rs `is_digit_char`. -/
def is_digit_char (c : Char) : Bool :=
  decide ('0' ≤ c ∧ c ≤ '9')

/-- Char class from mod.rs `is_escaped_char`. -/
def is_escaped_char (c : Char) : Bool :=
  c == '"' || c == '\\' || c == '/' || c == 'b' || c == 'f' ||
  c == 'n' || c == 'r' || c == 't'

/-- Char class from mod.rs `is_source_char`: `\t`, `\r`, `\n` or U+0020..U+FFFF. -/
def is_source_char (c : Char) : Bool :=
  c == '\t' || c == '\r' || c == '\n' || decide (' ' ≤ c ∧ c ≤ '\uFFFF')

/-- Modelled from the spec: the closed set of token kinds (token_kind.rs is
not among the given sources).  Spec section 3 lists exactly these kinds. -/
inductive TokenKind where
  | Bang | Dollar | Amp | Spread | Colon | Comma | At | LParen | RParen
  | LBracket | RBracket | LCurly | RCurly | Pipe | Eq | Name | Int | Float
  | StringValue | Comment | Whitespace | Eof
deriving Repr, DecidableEq

/-- Modelled from the spec: a token record (token.rs is not among the given
sources).  Spec section 3: `kind`, verbatim `data` slice, byte `index`. -/
structure Token where
  kind : TokenKind
  data : List Char
  index : Nat
deriving Repr, DecidableEq

/-- Modelled from the spec: `Token::new(kind, data)`; the scanner assigns
`token.index` itself right after construction, the initial index is 0. -/
def Token.new (kind : TokenKind) (data : List Char) : Token :=
  ⟨kind, data, 0⟩

/-- Modelled from the spec: an error record (the `Error` type is not among
the given sources).  Spec section 3: a message, the verbatim offending
slice, and a byte offset. -/
structure Error where
  message : String
  data : List Char
  index : Nat
deriving Repr, DecidableEq

/-- Modelled from the spec: `Error::new(message, data)` constructs an error
carrying only the offending slice; the offset starts at 0 and is
overwritten by the scanner's finalization when it applies. -/
def Error.new (message : String) (data : List Char) : Error :=
  ⟨message, data, 0⟩

/-- Total UTF-8 byte length of a character list (Rust `str::len`). -/
def utf8Len (cs : List Char) : Nat :=
  cs.foldr (fun c n => c.utf8Size + n) 0

/-- Byte offset of the start of the `i`-th character (Rust `CharIndices`
positions). -/
def bytePos (cs : List Char) (i : Nat) : Nat :=
  utf8Len (cs.take i)

/-- Rust byte slice `&s[a..b]`: `none` models the panic on a non-boundary
offset, an out-of-range end, or a start beyond the end. -/
def byteSlice : List Char → Nat → Nat → Option (List Char)
  | [], a, b => if a = 0 ∧ b = 0 then some [] else none
  | c :: cs, a, b =>
      if a = 0 then
        if b = 0 then some []
        else if c.utf8Size ≤ b then (byteSlice cs 0 (b - c.utf8Size)).map (c :: ·)
        else none
      else if c.utf8Size ≤ a ∧ c.utf8Size ≤ b then
        byteSlice cs (a - c.utf8Size) (b - c.utf8Size)
      else none

/-- Rust byte slice `&s[a..]`. -/
def byteSuffix (cs : List Char) (a : Nat) : Option (List Char) :=
  byteSlice cs a (utf8Len cs)

/-- The cursor of cursor.rs.  `index` is the byte offset at which the token
being accumulated starts, `offset` the byte offset of the most recently
examined character, `consumed` the number of characters the `CharIndices`
iterator has yielded.  The `prev` field of the source is never read and is
omitted. -/
structure Cursor where
  index : Nat
  offset : Nat
  source : List Char
  consumed : Nat
  pending : Option Char
  err : Option Error
deriving Repr, DecidableEq

/-- `Cursor::new`. -/
def Cursor.new (input : List Char) : Cursor :=
  ⟨0, 0, input, 0, none, none⟩

/-- One step of the `CharIndices` iterator: byte position and character. -/
def Cursor.iterNext (c : Cursor) : Option (Nat × Char) :=
  if h : c.consumed < c.source.length then
    some (bytePos c.source c.consumed, c.source.get ⟨c.consumed, h⟩)
  else none

/-- `Cursor::bump`: return the pending character if set, otherwise decode
the next character and move `offset` to its byte position. -/
def Cursor.bump (c : Cursor) : Option Char × Cursor :=
  match c.pending with
  | some ch => (some ch, { c with pending := none })
  | none =>
    if c.offset = utf8Len c.source then (none, c)
    else
      match c.iterNext with
      | none => (none, c)
      | some (pos, ch) => (some ch, { c with offset := pos, consumed := c.consumed + 1 })

/-- `Cursor::current_str`: the slice `source[index..=offset]`; then `index`
moves to the next character's position (staying put when the iterator is
exhausted) and that character is pre-loaded into `pending`.  A `none` slice
models the slicing panic. -/
def Cursor.current_str (c : Cursor) : Option (List Char) × Cursor :=
  match c.iterNext with
  | some (pos, next) =>
      (byteSlice c.source c.index (c.offset + 1),
       { c with pending := some next, index := pos, offset := pos,
                consumed := c.consumed + 1 })
  | none =>
      (byteSlice c.source c.index (c.offset + 1),
       { c with pending := none, index := c.offset })

/-- `Cursor::prev_str`: the slice `source[index..offset]` (the character at
`offset` belongs to the next token); `index` moves to `offset` and the
character at `offset` is stashed in `pending`. -/
def Cursor.prev_str (c : Cursor) : Option (List Char) × Cursor :=
  match byteSlice c.source c.index c.offset, byteSuffix c.source c.offset with
  | some slice, some rest =>
      (some slice, { c with index := c.offset, pending := rest.head? })
  | _, _ => (none, c)

/-- `Cursor::drain`: consume the rest of the iterator; `offset` ends at the
byte position of the last character. -/
def Cursor.drain (c : Cursor) : Cursor :=
  if c.consumed < c.source.length then
    { c with offset := bytePos c.source (c.source.length - 1),
             consumed := c.source.length }
  else c

/-- `Cursor::pending_len`: `offset - index`. -/
def Cursor.pending_len (c : Cursor) : Nat :=
  c.offset - c.index

/-- `Cursor::add_err`. -/
def Cursor.add_err (c : Cursor) (e : Error) : Cursor :=
  { c with err := some e }

/-- The local `State` enum of `new_advance`. -/
inductive State where
  | start | ident | stringLit | stringBackslash | intLit | floatLit
  | exponentLit | whitespace | comment | spreadOp | plusMinus
deriving Repr, DecidableEq

/-- Result of one scanner invocation: a token, an error, or a Rust panic. -/
inductive Scanned where
  | tok (t : Token)
  | fail (e : Error)
  | panicked
deriving Repr, DecidableEq

/-- Outcome of one iteration of the `new_advance` loop body. -/
inductive StepOut where
  | cont (state : State) (token : Token) (c : Cursor)
  | brk (token : Token) (c : Cursor)
  | ret (s : Scanned) (c : Cursor)
deriving Repr, DecidableEq

/-- The `"EOF"` sentinel data of the initial token. -/
def eofData : List Char := ['E', 'O', 'F']

/-- The message `Unexpected character `…`` built with `format!`. -/
def msgUnexpected (s : List Char) : String :=
  "Unexpected character `" ++ String.mk s ++ "`"

/-- The thirteen punctuator arms of the `Start` state match (mod.rs lines
162-231), as a table from the character to its token kind. -/
def punctKind (ch : Char) : Option TokenKind :=
  if ch == '!' then some .Bang
  else if ch == '$' then some .Dollar
  else if ch == '&' then some .Amp
  else if ch == '(' then some .LParen
  else if ch == ')' then some .RParen
  else if ch == ':' then some .Colon
  else if ch == ',' then some .Comma
  else if ch == '=' then some .Eq
  else if ch == '@' then some .At
  else if ch == '[' then some .LBracket
  else if ch == ']' then some .RBracket
  else if ch == '{' then some .LCurly
  else if ch == '|' then some .Pipe
  else if ch == '}' then some .RCurly
  else none

/-- Punctuator arm of the `Start` state: set the kind, take `current_str`
as data and return the token immediately. -/
def punctTok (k : TokenKind) (token : Token) (c : Cursor) : StepOut :=
  match c.current_str with
  | (none, c') => .ret .panicked c'
  | (some s, c') => .ret (.tok { token with kind := k, data := s }) c'

/-- The `new_advance` loop body for a character `ch` (mod.rs lines 131-396).
`brk` feeds the post-loop error finalization, `ret` returns directly. -/
def scanStep (st : State) (token : Token) (ch : Char) (c : Cursor) : StepOut :=
  match st with
  | .start =>
    if ch == '"' then .cont .stringLit { token with kind := .StringValue } c
    else if ch == '#' then .cont .comment { token with kind := .Comment } c
    else if ch == '.' then .cont .spreadOp { token with kind := .Spread } c
    else if is_whitespace ch then .cont .whitespace { token with kind := .Whitespace } c
    else if is_ident_char ch then .cont .ident { token with kind := .Name } c
    else if ch == '+' || ch == '-' then .cont .plusMinus { token with kind := .Int } c
    else if is_digit_char ch then .cont .intLit { token with kind := .Int } c
    else
      match punctKind ch with
      | some k => punctTok k token c
      | none => .ret (.fail (Error.new "Unexpected character" [ch])) c
  | .ident =>
    if is_ident_char ch || is_digit_char ch then .cont .ident token c
    else
      match c.prev_str with
      | (none, c') => .ret .panicked c'
      | (some s, c') => .brk { token with data := s } c'
  | .whitespace =>
    if is_whitespace ch then .cont .whitespace token c
    else
      match c.prev_str with
      | (none, c') => .ret .panicked c'
      | (some s, c') => .brk { token with data := s } c'
  | .stringLit =>
    if ch == '"' then
      match c.current_str with
      | (none, c') => .ret .panicked c'
      | (some s, c') => .brk { token with data := s } c'
    else if is_line_terminator ch then
      match c.drain.prev_str with
      | (none, c') => .ret .panicked c'
      | (some s, c') =>
          .brk { token with data := s }
              (c'.add_err (Error.new "unterminated string value" []))
    else if ch == '\\' then .cont .stringBackslash token c
    else if is_source_char ch then .cont .stringLit token c
    else
      match c.current_str with
      | (none, c') => .ret .panicked c'
      | (some s, c') => .brk { token with data := s } c'
  | .stringBackslash =>
    if is_escaped_char ch then .cont .stringLit token c
    else if ch == 'u' then .cont .stringLit token c
    else .cont .stringLit token
          (c.add_err (Error.new "unexpected escaped character" [ch]))
  | .intLit =>
    if is_digit_char ch then .cont .intLit token c
    else if ch == '.' then .cont .floatLit { token with kind := .Float } c
    else if ch == 'e' || ch == 'E' then .cont .exponentLit { token with kind := .Float } c
    else
      match c.prev_str with
      | (none, c') => .ret .panicked c'
      | (some s, c') => .brk { token with data := s } c'
  | .floatLit =>
    if is_digit_char ch then .cont .floatLit token c
    else if ch == '.' then
      .cont .floatLit token (c.add_err (Error.new (msgUnexpected [ch]) [ch]))
    else if ch == 'e' || ch == 'E' then .cont .exponentLit token c
    else
      match c.prev_str with
      | (none, c') => .ret .panicked c'
      | (some s, c') => .brk { token with data := s } c'
  | .exponentLit =>
    if is_digit_char ch then .cont .floatLit token c
    else if ch == '+' || ch == '-' then .cont .floatLit token c
    else
      match c.current_str with
      | (none, c') => .ret .panicked c'
      | (some s, c') => .ret (.fail (Error.new (msgUnexpected s) s)) c'
  | .spreadOp =>
    if ch == '.' then
      if c.pending_len = 2 then
        match c.current_str with
        | (none, c') => .ret .panicked c'
        | (some s, c') => .ret (.tok { token with data := s }) c'
      else .cont .spreadOp token c
    else
      match c.current_str with
      | (none, c') => .ret .panicked c'
      | (some s, c') =>
          .cont .spreadOp token
            (c'.add_err (Error.new "Unterminated spread operator" s))
  | .plusMinus =>
    if is_digit_char ch then .cont .intLit token c
    else
      match c.current_str with
      | (none, c') => .ret .panicked c'
      | (some s, c') => .ret (.fail (Error.new (msgUnexpected s) s)) c'
  | .comment =>
    if is_line_terminator ch then
      match c.current_str with
      | (none, c') => .ret .panicked c'
      | (some s, c') => .brk { token with data := s } c'
    else .cont .comment token c

/-- End-of-input branch of `new_advance` (mod.rs lines 98-128). -/
def scanEof (st : State) (token : Token) (c : Cursor) : Scanned × Cursor :=
  match st with
  | .start => (.tok { token with index := token.index + 1 }, c)
  | .stringLit =>
      (.fail (Error.new "unexpected end of data while lexing string value" ['"']), c)
  | .spreadOp =>
      match c.current_str with
      | (none, c') => (.panicked, c')
      | (some s, c') => (.fail (Error.new "Unterminated spread operator" s), c')
  | _ =>
      match c.err with
      | some e =>
          match c.current_str with
          | (none, c') => (.panicked, c')
          | (some s, c') => (.fail { e with data := s }, c')
      | none =>
          match c.current_str with
          | (none, c') => (.panicked, c')
          | (some s, c') => (.tok { token with data := s }, c')

/-- Post-loop error finalization (mod.rs lines 399-407): if the cursor holds
a pending in-token error, attach the token's slice and index, clear the
slot and return the error instead of the token. -/
def finalizeToken (token : Token) (c : Cursor) : Scanned × Cursor :=
  match c.err with
  | some e =>
      (.fail { e with data := token.data, index := token.index }, { c with err := none })
  | none => (.tok token, c)

/-- The `new_advance` loop, with explicit fuel (the loop provably consumes a
character of the finite input at every iteration, fuel makes that
termination explicit). -/
def scanLoop : Nat → State → Token → Cursor → Option (Scanned × Cursor)
  | 0, _, _, _ => none
  | fuel + 1, st, token, c =>
    match c.bump with
    | (none, c') => some (scanEof st token c')
    | (some ch, c') =>
      match scanStep st token ch c' with
      | .cont st' tk' c'' => scanLoop fuel st' tk' c''
      | .brk tk' c'' => some (finalizeToken tk' c'')
      | .ret out c'' => some (out, c'')

/-- `Cursor::new_advance`: one scanner invocation, starting from the `Start`
state with a token seeded `Eof`/`"EOF"`/`cursor.index`. -/
def new_advance (c : Cursor) (fuel : Nat) : Option (Scanned × Cursor) :=
  scanLoop fuel .start { Token.new .Eof eofData with index := c.index } c

/-- Result of a whole tokenization pass: the parallel token and error
sequences plus the final cursor, or a Rust panic. -/
inductive LexResult where
  | done (tokens : List Token) (errors : List Error) (final : Cursor)
  | panicked
deriving Repr, DecidableEq

/-- The `Lexer::new` driver loop: invoke `new_advance` repeatedly, pushing
tokens and errors, until an `Eof` token is produced. -/
def lexLoop : Nat → Cursor → List Token → List Error → Option LexResult
  | 0, _, _, _ => none
  | fuel + 1, c, toks, errs =>
    match new_advance c (c.source.length + 2) with
    | none => none
    | some (.panicked, _) => some .panicked
    | some (.tok t, c') =>
        if t.kind = .Eof then some (.done (toks ++ [t]) errs c')
        else lexLoop fuel c' (toks ++ [t]) errs
    | some (.fail e, c') => lexLoop fuel c' toks (errs ++ [e])

/-- `Lexer::new` on an input: fuel `length + 2` bounds the number of
scanner invocations (each consumes at least one character, plus the final
`Eof` invocation). -/
def lex (input : List Char) : Option LexResult :=
  lexLoop (input.length + 2) (Cursor.new input) [] []

/-- The token sequence of a completed tokenization. -/
def lexTokens (input : List Char) : Option (List Token) :=
  match lex input with
  | some (.done T _ _) => some T
  | _ => none

/-- The error sequence of a completed tokenization. -/
def lexErrors (input : List Char) : Option (List Error) :=
  match lex input with
  | some (.done _ E _) => some E
  | _ => none

/-- The final cursor of a completed tokenization. -/
def lexFinal (input : List Char) : Option Cursor :=
  match lex input with
  | some (.done _ _ fc) => some fc
  | _ => none

/-- Concatenation of the `data` slices of a token list. -/
def concatData (ts : List Token) : List Char :=
  ts.foldr (fun t acc => t.data ++ acc) []

/-- The characters of `s` strictly between character positions `i` and `j`. -/
def seg (s : List Char) (i j : Nat) : List Char :=
  (s.take j).drop i

/-- The cursor has just read the character at position `k`: the iterator
has yielded `k + 1` characters, `offset` is the byte position of character
`k`, and no character is pending. -/
def ReadPos (c : Cursor) (k : Nat) : Prop :=
  c.consumed = k + 1 ∧ c.offset = bytePos c.source k ∧ c.pending = none ∧
  k < c.source.length

/-- Cursor state between two scanner invocations: `index` sits at the byte
position of character `i` (the next token's first character), which is
either stashed in `pending` (after `prev_str`/`current_str`) or not yet
read at all (a fresh cursor). -/
def BetweenPass (c : Cursor) (i : Nat) : Prop :=
  c.index = bytePos c.source i ∧
  ((∃ h : i < c.source.length,
      c.pending = some (c.source.get ⟨i, h⟩) ∧ c.consumed = i + 1 ∧
      c.offset = c.index) ∨
   (c.pending = none ∧ c.consumed = 0 ∧ c.offset = 0 ∧ i = 0))

/-- Cursor state after a final `current_str` consumed the whole input: the
iterator is exhausted and `index` is stuck at the byte position of the last
character, which was a one-byte character (otherwise the slice would have
panicked). -/
def Exhausted (c : Cursor) : Prop :=
  c.pending = none ∧ 0 < c.source.length ∧ c.consumed = c.source.length ∧
  c.index = bytePos c.source (c.source.length - 1) ∧ c.offset = c.index ∧
  ∃ h : c.source.length - 1 < c.source.length,
    (c.source.get ⟨c.source.length - 1, h⟩).utf8Size = 1

/-- What a scanner invocation that started scanning at character `i` may
produce: a panic, an error, or a token which — when the cursor error slot
ends empty — is the verbatim segment of the input from `i` to some `i'`,
with the cursor moved to a well-formed state at `i'`. -/
def Outcome (s : List Char) (i : Nat) (res : Scanned) (c' : Cursor) : Prop :=
  res = .panicked ∨ (∃ e, res = .fail e) ∨
  (∃ t, res = .tok t ∧ (c'.err = none →
     t.kind ≠ .Eof ∧ t.index = bytePos s i ∧ c'.source = s ∧
     ∃ i', i < i' ∧ i' ≤ s.length ∧ t.data = seg s i i' ∧
       ((i' < s.length ∧ BetweenPass c' i') ∨
        (i' = s.length ∧ Exhausted c'))))

/-- Invariant of the `new_advance` loop away from the `Start` state: the
token under construction started at character `i`, the cursor has read up
to character `k`, and no in-token error is pending. -/
def MidInv (s : List Char) (st : State) (tk : Token) (c : Cursor) (i k : Nat) : Prop :=
  c.source = s ∧ st ≠ .start ∧ tk.kind ≠ .Eof ∧ tk.index = bytePos s i ∧
  c.index = bytePos s i ∧ c.err = none ∧ i ≤ k ∧ ReadPos c k


/-- If some prefix-length take of `l` equals `xs`, then taking exactly
`xs.length` does. -/
theorem take_length_of_take {α : Type} (l xs : List α) (n : Nat) (h : l.take n = xs) :
    l.take xs.length = xs := by
  subst h
  rw [List.length_take]
  rcases Nat.le_total n l.length with h1 | h1
  · rw [Nat.min_eq_left h1]
  · rw [Nat.min_eq_right h1, List.take_length, List.take_of_length_le h1]

/-- C1, counterexample.  On `+a b` the hard `Unexpected character` error
consumes the bytes `+a` via `current_str`, so the emitted tokens
concatenate to `" b"`, which is not a prefix of the input; and on `%a` the
`Start`-state error leaves `cursor.index` untouched, so the following
`Name` token re-covers the error byte `%` — the slices overlap. -/
theorem losslessness_counterexample :
    lexTokens ( "+a b".toList) =
      some [⟨.Whitespace, [ ' ' ], 2⟩, ⟨.Name, [ 'b' ], 3⟩, ⟨.Eof, eofData, 4⟩] ∧
    lexErrors ( "+a b".toList) = some [⟨ "Unexpected character `+a`", [ '+', 'a' ], 0⟩] ∧
    (¬ ∃ n, ( "+a b".toList).take n =
        concatData [⟨.Whitespace, [ ' ' ], 2⟩, ⟨.Name, [ 'b' ], 3⟩]) ∧
    lexTokens ( "%a".toList) = some [⟨.Name, [ '%', 'a' ], 0⟩, ⟨.Eof, eofData, 2⟩] ∧
    lexErrors ( "%a".toList) = some [⟨ "Unexpected character", [ '%' ], 0⟩] := by
  refine ⟨by decide, by decide, ?_, by decide, by decide⟩
  rintro ⟨n, hn⟩
  have h2 := take_length_of_take _ _ _ hn
  revert h2
  decide

/-- C2.  On the one-character input U+2028 (a three-byte whitespace
character), the `Whitespace` scan reaches end of input and `current_str`
slices `source[0..=0]`, whose end falls inside the character — the Rust
code panics (`byte index 1 is not a char boundary`), modelled here as
`LexResult.panicked`. -/
theorem tokenize_u2028_panics :
    lex [ ' ' ] = some LexResult.panicked := by decide

/-- C3, counterexample.  `new_advance` has no block-string state: on
`"""a"""` the scanner emits three `StringValue` tokens (`""`, `"a"`, `""`)
rather than one token spanning the whole input. -/
theorem block_string_counterexample :
    lexTokens ( "\"\"\"a\"\"\"".toList) =
      some [⟨.StringValue, [ '"', '"' ], 0⟩, ⟨.StringValue, [ '"', 'a', '"' ], 2⟩,
            ⟨.StringValue, [ '"', '"' ], 5⟩, ⟨.Eof, eofData, 7⟩] := by decide

/-- C3, amended.  `"""` is not recognized as a block-string delimiter: the
input `"""a"""` (7 characters) lexes as the empty string `""` at 0, the
string `"a"` at 2, the empty string `""` at 5, then `Eof` at 7, with no
errors. -/
theorem block_string_amended :
    lex ( "\"\"\"a\"\"\"".toList) =
      some (.done
        [⟨.StringValue, [ '"', '"' ], 0⟩, ⟨.StringValue, [ '"', 'a', '"' ], 2⟩,
         ⟨.StringValue, [ '"', '"' ], 5⟩, ⟨.Eof, eofData, 7⟩]
        []
        ⟨6, 6, ( "\"\"\"a\"\"\"".toList), 7, none, none⟩) := by decide

/-- C4, counterexample.  A literal newline inside a regular string does not
produce an `unexpected line terminator` error and the string token is not
continued: the scanner drains the rest of the input, the `StringValue`
token is replaced by an `unterminated string value` error, and a second
`unexpected end of data while lexing string value` error follows. -/
theorem string_newline_counterexample :
    lexTokens ( "\"line\nbreak\"".toList) = some [⟨.Eof, eofData, 12⟩] ∧
    lexErrors ( "\"line\nbreak\"".toList) =
      some [⟨ "unterminated string value",
             [ '"', 'l', 'i', 'n', 'e', '\n', 'b', 'r', 'e', 'a', 'k' ], 0⟩,
            ⟨ "unexpected end of data while lexing string value", [ '"' ], 0⟩] := by
  exact ⟨by decide, by decide⟩

/-- C4, amended.  On `"line\nbreak"` the line terminator makes the scanner
`drain` the remaining input and finalize the error `unterminated string
value` at offset 0 whose data is everything up to (excluding) the last
character; no `StringValue` token is emitted, a second hard error
`unexpected end of data while lexing string value` follows, and the only
token is `Eof` at 12. -/
theorem string_newline_amended :
    lex ( "\"line\nbreak\"".toList) =
      some (.done [⟨.Eof, eofData, 12⟩]
        [⟨ "unterminated string value", ( "\"line\nbreak\"".toList).take 11, 0⟩,
         ⟨ "unexpected end of data while lexing string value", [ '"' ], 0⟩]
        ⟨11, 11, ( "\"line\nbreak\"".toList), 12, none, none⟩) := by decide

/-- C5, counterexample.  Reaching end of input inside a regular string
literal reports `unexpected end of data while lexing string value` with
data `"`, not `unterminated string value` (that message is used by the
line-terminator branch instead). -/
theorem unterminated_string_counterexample :
    lexErrors ( "\"abc".toList) =
      some [⟨ "unexpected end of data while lexing string value", [ '"' ], 0⟩] ∧
    lexTokens ( "\"abc".toList) = some [⟨.Eof, eofData, 1⟩] := by
  exact ⟨by decide, by decide⟩

/-- C5, amended.  On `"abc` the scanner returns the hard error
`unexpected end of data while lexing string value` with data `"` at offset
0 (the offset the error was constructed with; the cursor index was never
advanced), and the only token is `Eof` at index 1. -/
theorem unterminated_string_amended :
    lex ( "\"abc".toList) =
      some (.done [⟨.Eof, eofData, 1⟩]
        [⟨ "unexpected end of data while lexing string value", [ '"' ], 0⟩]
        ⟨0, 3, ( "\"abc".toList), 4, none, none⟩) := by decide

/-- C6, counterexample.  The `Comment` state emits via `current_str`, so
the terminating line terminator is part of the comment token's data: on
`# comment\n{` the tokens are `Comment "# comment\n"`, `LCurly`, `Eof` —
there is no `Whitespace "\n"` token and the comment data contains the
newline. -/
theorem comment_counterexample :
    lexTokens ( "# comment\n\x7b".toList) =
      some [⟨.Comment, [ '#', ' ', 'c', 'o', 'm', 'm', 'e', 'n', 't', '\n' ], 0⟩,
            ⟨.LCurly, [ '{' ], 10⟩, ⟨.Eof, eofData, 11⟩] := by decide

/-- C6, amended.  A comment token extends through (and includes) the line
terminator that ends it; on `# comment\n{` the output is
`Comment "# comment\n"` at 0, `LCurly "{"` at 10, `Eof` at 11, no errors. -/
theorem comment_amended :
    lex ( "# comment\n\x7b".toList) =
      some (.done
        [⟨.Comment, [ '#', ' ', 'c', 'o', 'm', 'm', 'e', 'n', 't', '\n' ], 0⟩,
         ⟨.LCurly, [ '{' ], 10⟩, ⟨.Eof, eofData, 11⟩]
        []
        ⟨10, 10, ( "# comment\n\x7b".toList), 11, none, none⟩) := by decide

/-- C7, counterexample.  On input `a` (which tokenizes cleanly) the final
`Eof` token has index 1, the byte length of the input, not
`len(input) + 1 = 2`:  after the last `current_str` the cursor index stays
at the position of the last character, and the `Eof` branch adds exactly
one. -/
theorem eof_index_counterexample :
    lexTokens ( "a".toList) = some [⟨.Name, [ 'a' ], 0⟩, ⟨.Eof, eofData, 1⟩] ∧
    lexTokens ( "a".toList) ≠
      some [⟨.Name, [ 'a' ], 0⟩, ⟨.Eof, eofData, ( "a".toList).length + 1⟩] := by
  exact ⟨by decide, by decide⟩

/-- C8, counterexample.  On `+a` the `PlusMinus` hard error consumes the
character `a` into the error slice via `current_str`; the next pass starts
at end of input, so no `Name "a"` token is ever produced. -/
theorem plus_ident_counterexample :
    lexTokens ( "+a".toList) = some [⟨.Eof, eofData, 2⟩] ∧
    (lexTokens ( "+a".toList)).map
        (fun T => T.countP (fun t => t.kind == TokenKind.Name)) = some 0 := by
  exact ⟨by decide, by decide⟩

/-- C8, amended.  On `+a` the scanner produces exactly one hard error
`Unexpected character `+a`` (data `+a`, offset 0) and the character `a` is
consumed by the error's `current_str`; the next pass immediately reaches
end of input, so the only token is `Eof` at index 2. -/
theorem plus_ident_amended :
    lex ( "+a".toList) =
      some (.done [⟨.Eof, eofData, 2⟩]
        [⟨ "Unexpected character `+a`", [ '+', 'a' ], 0⟩]
        ⟨1, 1, ( "+a".toList), 2, none, none⟩) := by decide

/-- C9, counterexample.  On ` 1.2.3` the duplicate-dot recoverable error is
finalized at end of input: the emitted error keeps offset 0 (not the
finished token's index 1) and the cursor error slot is left set (the final
cursor still holds the original error), contradicting the claim for the
end-of-input case. -/
theorem error_finalization_counterexample :
    lex ( " 1.2.3".toList) =
      some (.done [⟨.Whitespace, [ ' ' ], 0⟩, ⟨.Eof, eofData, 6⟩]
        [⟨ "Unexpected character `.`", [ '1', '.', '2', '.', '3' ], 0⟩]
        ⟨5, 5, ( " 1.2.3".toList), 6, none,
         some ⟨ "Unexpected character `.`", [ '.' ], 0⟩⟩) := by decide

/-- C9, amended.  At an ordinary token boundary the post-loop finalization
does behave as claimed: with an error pending, `finalizeToken` returns the
error with `data := token.data` and `index := token.index` and clears the
slot.  At end of input, however, the error is returned with the token's
slice as data but keeps the offset it was constructed with (0), and the
slot is not cleared: on ` 1.2.3` the emitted error has offset 0 (the
finished token began at byte 1) and the final cursor still holds the
original error. -/
theorem error_finalization_behavior :
    (∀ (tk : Token) (c : Cursor) (e : Error), c.err = some e →
      finalizeToken tk c =
        (.fail ⟨e.message, tk.data, tk.index⟩, { c with err := none })) ∧
    lexErrors ( " 1.2.3".toList) =
      some [⟨ "Unexpected character `.`", [ '1', '.', '2', '.', '3' ], 0⟩] ∧
    (lexFinal ( " 1.2.3".toList)).map Cursor.err =
      some (some ⟨ "Unexpected character `.`", [ '.' ], 0⟩) := by
  refine ⟨?_, by decide, by decide⟩
  intro tk c e h
  simp [finalizeToken, h]

/-- Witness for the finalization theorem at a concrete token, cursor and
pending error. -/
theorem error_finalization_behavior_witness :
    finalizeToken ⟨.Float, [ '1' ], 7⟩ ⟨0, 0, [], 0, none, some ⟨ "m", [], 0⟩⟩ =
      (.fail ⟨ "m", [ '1' ], 7⟩, ⟨0, 0, [], 0, none, none⟩) :=
  error_finalization_behavior.1 ⟨.Float, [ '1' ], 7⟩
    ⟨0, 0, [], 0, none, some ⟨ "m", [], 0⟩⟩ ⟨ "m", [], 0⟩ rfl

/-- C10, counterexample.  Tokenizing `1e` yields a `Float "1e"` token (the
`ExponentLiteral` state is finished by the end-of-input default branch),
but tokenizing `  1e  ` yields no `Float` token at all: the space after
`1e` makes the `ExponentLiteral` state return a hard error instead. -/
theorem whitespace_padding_counterexample :
    lexTokens ( "1e".toList) = some [⟨.Float, [ '1', 'e' ], 0⟩, ⟨.Eof, eofData, 2⟩] ∧
    (lexTokens ( "  1e  ".toList)).map
        (fun T => T.countP (fun t => t.kind == TokenKind.Float)) = some 0 := by
  exact ⟨by decide, by decide⟩

/-- C10, amended.  Surrounding whitespace preserves tokens whose scan ends
at an ordinary in-input boundary — e.g. `x` lexes to `Name "x"` at 0 and
`  x  ` lexes to the same `Name "x"` shifted to index 2 — but not tokens
emitted by the end-of-input branch: `1e` lexes to `Float "1e"`, while in
`  1e  ` the `ExponentLiteral` state meets a space and raises the hard
error `Unexpected character `1e `` instead, so the `Float` token
disappears. -/
theorem whitespace_padding_amended :
    lexTokens ( "x".toList) = some [⟨.Name, [ 'x' ], 0⟩, ⟨.Eof, eofData, 1⟩] ∧
    lexTokens ( "  x  ".toList) =
      some [⟨.Whitespace, [ ' ', ' ' ], 0⟩, ⟨.Name, [ 'x' ], 2⟩,
            ⟨.Whitespace, [ ' ', ' ' ], 3⟩, ⟨.Eof, eofData, 5⟩] ∧
    lexTokens ( "1e".toList) = some [⟨.Float, [ '1', 'e' ], 0⟩, ⟨.Eof, eofData, 2⟩] ∧
    lexTokens ( "  1e  ".toList) =
      some [⟨.Whitespace, [ ' ', ' ' ], 0⟩, ⟨.Whitespace, [ ' ' ], 5⟩, ⟨.Eof, eofData, 6⟩] ∧
    lexErrors ( "  1e  ".toList) =
      some [⟨ "Unexpected character `1e `", [ '1', 'e', ' ' ], 0⟩] := by
  refine ⟨by decide, by decide, by decide, by decide, by decide⟩

/-- Byte length of the empty list. -/
theorem utf8Len_nil : utf8Len [] = 0 := rfl

/-- Byte length of a cons. -/
theorem utf8Len_cons (c : Char) (cs : List Char) :
    utf8Len (c :: cs) = c.utf8Size + utf8Len cs := rfl

/-- Byte length is additive under append. -/
theorem utf8Len_append (a b : List Char) :
    utf8Len (a ++ b) = utf8Len a + utf8Len b := by
  induction a with
  | nil => simp [utf8Len_nil, utf8Len]
  | cons c t ih =>
    simp only [List.cons_append, utf8Len_cons, ih, Nat.add_assoc]

/-- A nonempty list has positive byte length. -/
theorem utf8Len_pos (l : List Char) (h : l ≠ []) : 0 < utf8Len l := by
  cases l with
  | nil => exact absurd rfl h
  | cons c t =>
    have hc := Char.utf8Size_pos c
    rw [utf8Len_cons]
    omega

/-- Character position 0 is byte position 0. -/
theorem bytePos_zero (s : List Char) : bytePos s 0 = 0 := rfl

/-- The byte position of the end of the list is its byte length. -/
theorem bytePos_length (s : List Char) : bytePos s s.length = utf8Len s := by
  unfold bytePos
  rw [List.take_length]

/-- Taking one more character appends exactly that character. -/
theorem take_succ_get (s : List Char) (i : Nat) (h : i < s.length) :
    s.take (i + 1) = s.take i ++ [s.get ⟨i, h⟩] := by
  rw [List.take_succ]
  simp [List.getElem?_eq_getElem h]

/-- Byte position of the next character. -/
theorem bytePos_succ (s : List Char) (i : Nat) (h : i < s.length) :
    bytePos s (i + 1) = bytePos s i + (s.get ⟨i, h⟩).utf8Size := by
  unfold bytePos
  rw [take_succ_get s i h, utf8Len_append]
  simp [utf8Len_cons, utf8Len_nil]

/-- Byte position through a cons cell. -/
theorem bytePos_cons_succ (c : Char) (t : List Char) (k : Nat) :
    bytePos (c :: t) (k + 1) = c.utf8Size + bytePos t k := by
  unfold bytePos
  rw [List.take_succ_cons, utf8Len_cons]

/-- A take followed by the segment up to `j` is the take up to `j`. -/
theorem take_append_seg (s : List Char) (i j : Nat) (h : i ≤ j) :
    s.take i ++ seg s i j = s.take j := by
  unfold seg
  have h1 : (s.take j).take i = s.take i := by
    rw [List.take_take, Nat.min_eq_left h]
  calc s.take i ++ (s.take j).drop i
      = (s.take j).take i ++ (s.take j).drop i := by rw [h1]
    _ = s.take j := List.take_append_drop _ _

/-- Splitting a byte position at an intermediate character position. -/
theorem bytePos_split (s : List Char) (i j : Nat) (h : i ≤ j) :
    bytePos s j = bytePos s i + utf8Len (seg s i j) := by
  unfold bytePos
  rw [← take_append_seg s i j h, utf8Len_append]

/-- Byte positions are monotone in the character position. -/
theorem bytePos_mono (s : List Char) (i j : Nat) (h : i ≤ j) :
    bytePos s i ≤ bytePos s j := by
  rw [bytePos_split s i j h]
  omega

/-- A segment between distinct in-range positions is nonempty. -/
theorem seg_ne_nil (s : List Char) (i j : Nat) (hij : i < j) (hj : j ≤ s.length) :
    seg s i j ≠ [] := by
  unfold seg
  intro h
  have h1 : (s.take j).length = j := by
    rw [List.length_take]
    omega
  have h2 := List.length_drop i (s.take j)
  rw [h, h1] at h2
  simp at h2
  omega

/-- Byte positions are strictly monotone up to the length. -/
theorem bytePos_strict (s : List Char) (i j : Nat) (hij : i < j) (hj : j ≤ s.length) :
    bytePos s i < bytePos s j := by
  rw [bytePos_split s i j (Nat.le_of_lt hij)]
  have h3 := utf8Len_pos _ (seg_ne_nil s i j hij hj)
  omega

/-- Byte positions of proper characters are below the total byte length. -/
theorem bytePos_lt_utf8Len (s : List Char) (i : Nat) (h : i < s.length) :
    bytePos s i < utf8Len s := by
  have h2 := bytePos_strict s i s.length h (Nat.le_refl _)
  rwa [bytePos_length] at h2

/-- Byte positions determine character positions within the list. -/
theorem bytePos_inj (s : List Char) (i j : Nat) (hi : i ≤ s.length) (hj : j ≤ s.length)
    (h : bytePos s i = bytePos s j) : i = j := by
  rcases Nat.lt_trichotomy i j with h1 | h1 | h1
  · exact absurd h (Nat.ne_of_lt (bytePos_strict s i j h1 hj))
  · exact h1
  · exact absurd h.symm (Nat.ne_of_lt (bytePos_strict s j i h1 hi))

/-- A strict byte-position inequality reflects to character positions. -/
theorem bytePos_lt_reflect (s : List Char) (i j : Nat)
    (h : bytePos s i < bytePos s j) : i < j := by
  by_contra h1
  push_neg at h1
  have h2 := bytePos_mono s j i h1
  omega

/-- A segment whose start byte position is 0 is an initial take. -/
theorem seg_of_bytePos_zero (t : List Char) (i j : Nat) (h : bytePos t i = 0) :
    seg t i j = t.take j := by
  have h0 : t.take i = [] := by
    by_contra hne
    have h2 := utf8Len_pos _ hne
    unfold bytePos at h
    omega
  rcases List.take_eq_nil_iff.mp h0 with h1 | h1
  · subst h1
    unfold seg
    rfl
  · subst h1
    unfold seg
    simp

/-- Computing `byteSlice` at two character boundaries yields the segment. -/
theorem byteSlice_bytePos (s : List Char) (i j : Nat) (hij : i ≤ j) (hj : j ≤ s.length) :
    byteSlice s (bytePos s i) (bytePos s j) = some (seg s i j) := by
  induction s generalizing i j with
  | nil =>
    have hj0 : j = 0 := by simpa using hj
    subst hj0
    have hi0 : i = 0 := Nat.le_zero.mp hij
    subst hi0
    rfl
  | cons c t ih =>
    have hsz := Char.utf8Size_pos c
    cases i with
    | zero =>
      cases j with
      | zero => rfl
      | succ j' =>
        have hj' : j' ≤ t.length := by simpa using hj
        rw [bytePos_zero, bytePos_cons_succ]
        rw [byteSlice]
        rw [if_pos rfl, if_neg (by omega), if_pos (by omega)]
        have hsub : c.utf8Size + bytePos t j' - c.utf8Size = bytePos t j' := by omega
        rw [hsub]
        have ih2 := ih 0 j' (Nat.zero_le _) hj'
        rw [bytePos_zero] at ih2
        rw [ih2]
        unfold seg
        simp [List.take_succ_cons]
    | succ i' =>
      cases j with
      | zero => omega
      | succ j' =>
        have hj' : j' ≤ t.length := by simpa using hj
        rw [bytePos_cons_succ, bytePos_cons_succ]
        rw [byteSlice]
        rw [if_neg (by omega), if_pos (by constructor <;> omega)]
        have hsub1 : c.utf8Size + bytePos t i' - c.utf8Size = bytePos t i' := by omega
        have hsub2 : c.utf8Size + bytePos t j' - c.utf8Size = bytePos t j' := by omega
        rw [hsub1, hsub2]
        rw [ih i' j' (by omega) hj']
        unfold seg
        simp [List.take_succ_cons, List.drop_succ_cons]

/-- Inversion: a successful `byteSlice` identifies its endpoints as
character boundaries and its value as the corresponding segment. -/
theorem byteSlice_eq_some (s : List Char) (a b : Nat) (xs : List Char)
    (h : byteSlice s a b = some xs) :
    ∃ i j, i ≤ j ∧ j ≤ s.length ∧ a = bytePos s i ∧ b = bytePos s j ∧
      xs = seg s i j := by
  induction s generalizing a b xs with
  | nil =>
    rw [byteSlice] at h
    split at h
    · rename_i hab
      obtain ⟨ha, hb⟩ := hab
      refine ⟨0, 0, Nat.le_refl _, Nat.le_refl _, by simp [ha, bytePos_zero],
        by simp [hb, bytePos_zero], ?_⟩
      cases h
      rfl
    · exact absurd h (by simp)
  | cons c t ih =>
    have hsz := Char.utf8Size_pos c
    rw [byteSlice] at h
    split at h
    · rename_i ha
      subst ha
      split at h
      · rename_i hb
        subst hb
        refine ⟨0, 0, Nat.le_refl _, Nat.zero_le _, rfl, rfl, ?_⟩
        cases h
        rfl
      · split at h
        · rename_i hb hcb
          rcases hmap : byteSlice t 0 (b - c.utf8Size) with _ | ys
          · rw [hmap] at h
            exact absurd h (by simp)
          · rw [hmap] at h
            obtain ⟨i', j', hij', hj', ha', hb', hys⟩ := ih 0 (b - c.utf8Size) ys hmap
            refine ⟨0, j' + 1, Nat.zero_le _, by simpa using Nat.succ_le_succ hj',
              rfl, ?_, ?_⟩
            · rw [bytePos_cons_succ]
              omega
            · have h2 : c :: ys = xs := by simpa using h
              subst h2
              rw [hys, seg_of_bytePos_zero t i' j' ha'.symm]
              unfold seg
              simp [List.take_succ_cons]
        · exact absurd h (by simp)
    · split at h
      · rename_i ha hcond
        obtain ⟨hca, hcb⟩ := hcond
        obtain ⟨i', j', hij', hj', ha', hb', hys⟩ := ih (a - c.utf8Size) (b - c.utf8Size) xs h
        refine ⟨i' + 1, j' + 1, Nat.succ_le_succ hij', by simpa using Nat.succ_le_succ hj',
          ?_, ?_, ?_⟩
        · rw [bytePos_cons_succ]
          omega
        · rw [bytePos_cons_succ]
          omega
        · rw [hys]
          unfold seg
          simp [List.take_succ_cons, List.drop_succ_cons]
      · exact absurd h (by simp)

/-- `byteSuffix` at a character boundary is the drop from that character. -/
theorem byteSuffix_bytePos (s : List Char) (j : Nat) (hj : j ≤ s.length) :
    byteSuffix s (bytePos s j) = some (s.drop j) := by
  unfold byteSuffix
  rw [← bytePos_length s]
  rw [byteSlice_bytePos s j s.length hj (Nat.le_refl _)]
  congr 1
  unfold seg
  rw [List.take_length]

/-- The head of a drop is the element at that position. -/
theorem head?_drop_get (l : List Char) (n : Nat) (h : n < l.length) :
    (l.drop n).head? = some (l.get ⟨n, h⟩) := by
  induction n generalizing l with
  | zero =>
    cases l with
    | nil => simp at h
    | cons a t => simp
  | succ n ih =>
    cases l with
    | nil => simp at h
    | cons a t => simpa using ih t (by simpa using h)

/-- Bump from a between-pass state with characters remaining: the next
character is character `i`, and the cursor moves to `ReadPos` at `i`. -/
theorem bump_between (c : Cursor) (i : Nat) (hb : BetweenPass c i)
    (hi : i < c.source.length) :
    ∃ c2, c.bump = (some (c.source.get ⟨i, hi⟩), c2) ∧
      c2.source = c.source ∧ c2.err = c.err ∧ c2.index = c.index ∧ ReadPos c2 i := by
  obtain ⟨ci, co, cs, cc, cp, ce⟩ := c
  obtain ⟨hidx, hcase⟩ := hb
  dsimp only at hidx hi ⊢
  rcases hcase with ⟨h', hpend, hcons, hoff⟩ | ⟨hpend, hcons, hoff, hi0⟩
  · dsimp only at h' hpend hcons hoff
    subst hpend
    subst hcons
    subst hoff
    subst hidx
    refine ⟨_, rfl, rfl, rfl, rfl, rfl, rfl, rfl, hi⟩
  · dsimp only at hpend hcons hoff
    subst hpend
    subst hcons
    subst hoff
    subst hi0
    rw [bytePos_zero] at hidx
    subst hidx
    have hnil : cs ≠ [] := by
      intro hn
      rw [hn] at hi
      simp at hi
    have hne : ¬ (0 : Nat) = utf8Len cs := by
      have h2 := utf8Len_pos cs hnil
      omega
    unfold Cursor.bump
    dsimp only
    rw [if_neg hne]
    unfold Cursor.iterNext
    dsimp only
    rw [dif_pos hi]
    exact ⟨_, rfl, rfl, rfl, rfl, rfl, bytePos_zero cs, rfl, hi⟩

/-- Bump from a between-pass state with no characters remaining: only the
fresh empty-input cursor qualifies, and the bump yields end of input. -/
theorem bump_between_empty (c : Cursor) (i : Nat) (hb : BetweenPass c i)
    (hi : ¬ i < c.source.length) :
    c.source = [] ∧ i = 0 ∧ c.bump = (none, c) ∧ c.index = 0 := by
  obtain ⟨ci, co, cs, cc, cp, ce⟩ := c
  obtain ⟨hidx, hcase⟩ := hb
  dsimp only at hidx hi ⊢
  rcases hcase with ⟨h', _, _, _⟩ | ⟨hpend, hcons, hoff, hi0⟩
  · exact absurd h' hi
  · dsimp only at hpend hcons hoff
    subst hpend
    subst hcons
    subst hoff
    subst hi0
    rw [bytePos_zero] at hidx
    subst hidx
    have hnil : cs = [] := by
      cases cs with
      | nil => rfl
      | cons a t => simp at hi
    subst hnil
    exact ⟨rfl, rfl, rfl, rfl⟩

/-- Bump while scanning: either the next character exists (moving to
`ReadPos` at `k + 1`) or the input is exhausted and the cursor is
unchanged. -/
theorem bump_readPos (c : Cursor) (k : Nat) (hr : ReadPos c k) :
    (∃ h2 : k + 1 < c.source.length, ∃ c2,
       c.bump = (some (c.source.get ⟨k + 1, h2⟩), c2) ∧
       c2.source = c.source ∧ c2.err = c.err ∧ c2.index = c.index ∧
       ReadPos c2 (k + 1))
    ∨ (k + 1 = c.source.length ∧ c.bump = (none, c)) := by
  obtain ⟨ci, co, cs, cc, cp, ce⟩ := c
  obtain ⟨hcons, hoff, hpend, hk⟩ := hr
  dsimp only at hcons hoff hpend hk ⊢
  subst hcons
  subst hoff
  subst hpend
  have hne : ¬ bytePos cs k = utf8Len cs := by
    have h2 := bytePos_lt_utf8Len cs k hk
    omega
  by_cases h2 : k + 1 < cs.length
  · left
    refine ⟨h2, ⟨ci, bytePos cs (k + 1), cs, k + 2, none, ce⟩, ?_,
      rfl, rfl, rfl, rfl, rfl, rfl, h2⟩
    unfold Cursor.bump
    dsimp only
    rw [if_neg hne]
    unfold Cursor.iterNext
    dsimp only
    rw [dif_pos h2]
  · right
    have h3 : k + 1 = cs.length := by omega
    refine ⟨h3, ?_⟩
    unfold Cursor.bump
    dsimp only
    rw [if_neg hne]
    unfold Cursor.iterNext
    dsimp only
    rw [dif_neg h2]

/-- The slice of `current_str` from a read position: either the slice
panics, or it is the verbatim segment from `i` through the just-read
character `k`, with the cursor moving to the next between-pass state (or
to the exhausted state at end of input, forcing the last character to be
one byte). -/
theorem current_str_spec (c : Cursor) (i k : Nat)
    (hidx : c.index = bytePos c.source i) (hik : i ≤ k) (hr : ReadPos c k) :
    (∃ c', c.current_str = (none, c') ∧ c'.source = c.source ∧ c'.err = c.err) ∨
    (∃ c', c.current_str = (some (seg c.source i (k + 1)), c') ∧
      c'.source = c.source ∧ c'.err = c.err ∧
      ((k + 1 < c.source.length ∧ BetweenPass c' (k + 1)) ∨
       (k + 1 = c.source.length ∧ Exhausted c'))) := by
  obtain ⟨ci, co, cs, cc, cp, ce⟩ := c
  obtain ⟨hcons, hoff, hpend, hk⟩ := hr
  dsimp only at hidx hcons hoff hpend hk ⊢
  subst hcons
  subst hoff
  subst hpend
  subst hidx
  have hsz := Char.utf8Size_pos (cs.get ⟨k, hk⟩)
  have hbs := bytePos_succ cs k hk
  have hilen : i ≤ cs.length := Nat.le_of_lt (Nat.lt_of_le_of_lt hik hk)
  rcases hsl : byteSlice cs (bytePos cs i) (bytePos cs k + 1) with _ | xs
  · left
    unfold Cursor.current_str Cursor.iterNext
    dsimp only
    by_cases h2 : k + 1 < cs.length
    · rw [dif_pos h2, hsl]
      exact ⟨_, rfl, rfl, rfl⟩
    · rw [dif_neg h2, hsl]
      exact ⟨_, rfl, rfl, rfl⟩
  · right
    obtain ⟨i0, j0, hij0, hj0, ha0, hb0, hxs⟩ := byteSlice_eq_some _ _ _ _ hsl
    have hi0 : i0 = i :=
      bytePos_inj cs i0 i (Nat.le_trans hij0 hj0) hilen ha0.symm
    subst hi0
    have hkj0 : k < j0 := by
      apply bytePos_lt_reflect cs
      omega
    have hj0k : j0 = k + 1 := by
      by_contra hne
      have h3 : k + 1 < j0 := by omega
      have h4 := bytePos_strict cs (k + 1) j0 h3 hj0
      omega
    subst hj0k
    have hsz1 : (cs.get ⟨k, hk⟩).utf8Size = 1 := by omega
    subst hxs
    unfold Cursor.current_str Cursor.iterNext
    dsimp only
    by_cases h2 : k + 1 < cs.length
    · rw [dif_pos h2, hsl]
      refine ⟨_, rfl, rfl, rfl, Or.inl ⟨h2, rfl, Or.inl ⟨h2, rfl, rfl, rfl⟩⟩⟩
    · rw [dif_neg h2, hsl]
      have hlen : k + 1 = cs.length := by omega
      have hlen1 : cs.length - 1 = k := by omega
      refine ⟨_, rfl, rfl, rfl, Or.inr ⟨hlen, ?_⟩⟩
      unfold Exhausted
      dsimp only
      refine ⟨rfl, by omega, hlen, ?_, rfl, ?_⟩
      · rw [hlen1]
      · refine ⟨by omega, ?_⟩
        have h6 : (⟨cs.length - 1, by omega⟩ : Fin cs.length) = ⟨k, hk⟩ :=
          Fin.ext hlen1
        rw [h6]
        exact hsz1

/-- `prev_str` from a read position: the slice is the segment from `i` up
to (excluding) the just-read character `k`, which is stashed in `pending`,
and the cursor moves to the between-pass state at `k`. -/
theorem prev_str_spec (c : Cursor) (i k : Nat)
    (hidx : c.index = bytePos c.source i) (hik : i ≤ k) (hr : ReadPos c k) :
    ∃ c', c.prev_str = (some (seg c.source i k), c') ∧
      c'.source = c.source ∧ c'.err = c.err ∧ BetweenPass c' k := by
  obtain ⟨ci, co, cs, cc, cp, ce⟩ := c
  obtain ⟨hcons, hoff, hpend, hk⟩ := hr
  dsimp only at hidx hcons hoff hpend hk ⊢
  subst hcons
  subst hoff
  subst hpend
  subst hidx
  have h1 := byteSlice_bytePos cs i k hik (Nat.le_of_lt hk)
  have h2 := byteSuffix_bytePos cs k (Nat.le_of_lt hk)
  unfold Cursor.prev_str
  dsimp only
  rw [h1, h2]
  refine ⟨_, rfl, rfl, rfl, rfl, Or.inl ⟨hk, ?_, rfl, rfl⟩⟩
  dsimp only
  rw [head?_drop_get cs k hk]

/-- `bump` leaves the error slot unchanged. -/
theorem bump_err (c : Cursor) : (c.bump).2.err = c.err := by
  obtain ⟨ci, co, cs, cc, cp, ce⟩ := c
  cases cp with
  | some ch => rfl
  | none =>
    unfold Cursor.bump Cursor.iterNext
    dsimp only
    by_cases h1 : co = utf8Len cs
    · rw [if_pos h1]
    · rw [if_neg h1]
      by_cases h2 : cc < cs.length
      · rw [dif_pos h2]
      · rw [dif_neg h2]

/-- `current_str` leaves the error slot unchanged. -/
theorem current_str_err (c : Cursor) : (c.current_str).2.err = c.err := by
  unfold Cursor.current_str
  rcases h : c.iterNext with _ | p
  · rfl
  · obtain ⟨pos, next⟩ := p
    rfl

/-- `prev_str` leaves the error slot unchanged. -/
theorem prev_str_err (c : Cursor) : (c.prev_str).2.err = c.err := by
  unfold Cursor.prev_str
  rcases h1 : byteSlice c.source c.index c.offset with _ | s1 <;>
    rcases h2 : byteSuffix c.source c.offset with _ | s2 <;> rfl

/-- `finalizeToken` with a pending error: return it, fixed up, slot cleared. -/
theorem finalizeToken_some (tk : Token) (c : Cursor) (e : Error) (h : c.err = some e) :
    finalizeToken tk c =
      (.fail { e with data := tk.data, index := tk.index }, { c with err := none }) := by
  unfold finalizeToken
  rw [h]

/-- `finalizeToken` without a pending error: return the token unchanged. -/
theorem finalizeToken_none (tk : Token) (c : Cursor) (h : c.err = none) :
    finalizeToken tk c = (.tok tk, c) := by
  unfold finalizeToken
  rw [h]

set_option maxHeartbeats 1600000 in
/-- Error-slot persistence through one loop body step: once set, the slot
is still set in the cursor of any `cont`, `brk` or token-returning `ret`. -/
theorem scanStep_err (st : State) (tk : Token) (ch : Char) (c : Cursor)
    (h : c.err ≠ none) :
    (match scanStep st tk ch c with
     | .cont _ _ c' => c'.err ≠ none
     | .brk _ c' => c'.err ≠ none
     | .ret (.tok _) c' => c'.err ≠ none
     | .ret (.fail _) _ => True
     | .ret .panicked _ => True) := by
  have hcu := current_str_err c
  have hpe := prev_str_err c
  cases st with
  | start =>
    rcases hcs : c.current_str with ⟨ocs, ccs⟩
    rw [hcs] at hcu
    dsimp only at hcu
    dsimp only [scanStep, punctTok]
    rw [hcs]
    split_ifs <;>
      first
        | exact h
        | (rcases hpk : punctKind ch with _ | k <;> cases ocs <;> dsimp only <;>
            first | trivial | exact h | (rw [hcu]; exact h))
  | ident =>
    rcases hps : c.prev_str with ⟨ops, cps⟩
    rw [hps] at hpe
    dsimp only at hpe
    dsimp only [scanStep]
    rw [hps]
    split_ifs <;> cases ops <;> dsimp only <;>
      first | trivial | exact h | (rw [hpe]; exact h)
  | whitespace =>
    rcases hps : c.prev_str with ⟨ops, cps⟩
    rw [hps] at hpe
    dsimp only at hpe
    dsimp only [scanStep]
    rw [hps]
    split_ifs <;> cases ops <;> dsimp only <;>
      first | trivial | exact h | (rw [hpe]; exact h)
  | stringLit =>
    rcases hcs : c.current_str with ⟨ocs, ccs⟩
    rw [hcs] at hcu
    dsimp only at hcu
    rcases hdp : (c.drain).prev_str with ⟨odp, cdp⟩
    dsimp only [scanStep]
    rw [hcs, hdp]
    split_ifs <;> cases ocs <;> cases odp <;> dsimp only <;>
      first
        | trivial
        | exact h
        | (rw [hcu]; exact h)
        | (simp [Cursor.add_err])
  | stringBackslash =>
    dsimp only [scanStep]
    split_ifs <;> dsimp only <;>
      first | trivial | exact h | (simp [Cursor.add_err])
  | intLit =>
    rcases hps : c.prev_str with ⟨ops, cps⟩
    rw [hps] at hpe
    dsimp only at hpe
    dsimp only [scanStep]
    rw [hps]
    split_ifs <;> cases ops <;> dsimp only <;>
      first | trivial | exact h | (rw [hpe]; exact h)
  | floatLit =>
    rcases hps : c.prev_str with ⟨ops, cps⟩
    rw [hps] at hpe
    dsimp only at hpe
    dsimp only [scanStep]
    rw [hps]
    split_ifs <;> cases ops <;> dsimp only <;>
      first
        | trivial
        | exact h
        | (rw [hpe]; exact h)
        | (simp [Cursor.add_err])
  | exponentLit =>
    rcases hcs : c.current_str with ⟨ocs, ccs⟩
    rw [hcs] at hcu
    dsimp only at hcu
    dsimp only [scanStep]
    rw [hcs]
    split_ifs <;> cases ocs <;> dsimp only <;>
      first | trivial | exact h | (rw [hcu]; exact h)
  | spreadOp =>
    rcases hcs : c.current_str with ⟨ocs, ccs⟩
    rw [hcs] at hcu
    dsimp only at hcu
    dsimp only [scanStep]
    rw [hcs]
    split_ifs <;> cases ocs <;> dsimp only <;>
      first
        | trivial
        | exact h
        | (rw [hcu]; exact h)
        | (simp [Cursor.add_err])
  | plusMinus =>
    rcases hcs : c.current_str with ⟨ocs, ccs⟩
    rw [hcs] at hcu
    dsimp only at hcu
    dsimp only [scanStep]
    rw [hcs]
    split_ifs <;> cases ocs <;> dsimp only <;>
      first | trivial | exact h | (rw [hcu]; exact h)
  | comment =>
    rcases hcs : c.current_str with ⟨ocs, ccs⟩
    rw [hcs] at hcu
    dsimp only at hcu
    dsimp only [scanStep]
    rw [hcs]
    split_ifs <;> cases ocs <;> dsimp only <;>
      first | trivial | exact h | (rw [hcu]; exact h)

/-- Error-slot persistence through the end-of-input branch. -/
theorem scanEof_err (st : State) (tk : Token) (c : Cursor) (h : c.err ≠ none) :
    (match scanEof st tk c with
     | (.tok _, c') => c'.err ≠ none
     | (.fail _, _) => True
     | (.panicked, _) => True) := by
  rcases hcs : c.current_str with ⟨ocs, ccs⟩
  cases st <;> dsimp only [scanEof] <;> (try rw [hcs])
  all_goals try cases he : c.err
  all_goals try cases ocs
  all_goals try dsimp only
  all_goals first
    | trivial
    | simp
    | exact absurd he h

/-- Error-slot persistence through a whole scanner invocation: from a
cursor with a set error slot, the loop returns a panic, an error, or a
token leaving the slot still set. -/
theorem scanLoop_err (fuel : Nat) :
    ∀ st tk c res c', c.err ≠ none → scanLoop fuel st tk c = some (res, c') →
      res = .panicked ∨ (∃ e, res = .fail e) ∨ (∃ t, res = .tok t ∧ c'.err ≠ none) := by
  induction fuel with
  | zero =>
    intro st tk c res c' h hl
    simp [scanLoop] at hl
  | succ n ih =>
    intro st tk c res c' h hl
    rw [scanLoop] at hl
    rcases hb : c.bump with ⟨ob, cb⟩
    have hbe := bump_err c
    rw [hb] at hbe hl
    dsimp only at hbe
    have hcb : cb.err ≠ none := by rw [hbe]; exact h
    cases ob with
    | none =>
      dsimp only at hl
      have hse := scanEof_err st tk cb hcb
      rcases hsc : scanEof st tk cb with ⟨sres, sc⟩
      rw [hsc] at hse hl
      simp only [Option.some.injEq, Prod.mk.injEq] at hl
      obtain ⟨h1, h2⟩ := hl
      subst h1
      subst h2
      cases sres with
      | panicked => exact Or.inl rfl
      | fail e => exact Or.inr (Or.inl ⟨e, rfl⟩)
      | tok t =>
        dsimp only at hse
        exact Or.inr (Or.inr ⟨t, rfl, hse⟩)
    | some ch =>
      dsimp only at hl
      have hst := scanStep_err st tk ch cb hcb
      rcases hss : scanStep st tk ch cb with ⟨st', tk', c2⟩ | ⟨tk', c2⟩ | ⟨out, c2⟩
      · rw [hss] at hst hl
        dsimp only at hst hl
        exact ih st' tk' c2 res c' hst hl
      · rw [hss] at hst hl
        dsimp only at hst hl
        rcases he : c2.err with _ | e
        · exact absurd he hst
        · rw [finalizeToken_some tk' c2 e he] at hl
          simp only [Option.some.injEq, Prod.mk.injEq] at hl
          obtain ⟨h1, h2⟩ := hl
          subst h1
          exact Or.inr (Or.inl ⟨_, rfl⟩)
      · rw [hss] at hst hl
        dsimp only at hst hl
        simp only [Option.some.injEq, Prod.mk.injEq] at hl
        obtain ⟨h1, h2⟩ := hl
        subst h1
        subst h2
        cases out with
        | panicked => exact Or.inl rfl
        | fail e => exact Or.inr (Or.inl ⟨e, rfl⟩)
        | tok t =>
          dsimp only at hst
          exact Or.inr (Or.inr ⟨t, rfl, hst⟩)

/-- A panic is always an admissible outcome. -/
theorem outcome_panic (s : List Char) (i : Nat) (c' : Cursor) :
    Outcome s i .panicked c' := Or.inl rfl

/-- An error is always an admissible outcome. -/
theorem outcome_fail (s : List Char) (i : Nat) (e : Error) (c' : Cursor) :
    Outcome s i (.fail e) c' := Or.inr (Or.inl ⟨e, rfl⟩)

/-- A token outcome built from its position data. -/
theorem outcome_tok (s : List Char) (i i' : Nat) (t : Token) (c' : Cursor)
    (hkind : t.kind ≠ .Eof) (hidx : t.index = bytePos s i)
    (hsrc : c'.source = s) (hii : i < i')
    (hdata : t.data = seg s i i')
    (hst : (i' < s.length ∧ BetweenPass c' i') ∨ (i' = s.length ∧ Exhausted c')) :
    Outcome s i (.tok t) c' := by
  refine Or.inr (Or.inr ⟨t, rfl, fun _ => ⟨hkind, hidx, hsrc, i', hii, ?_, hdata, hst⟩⟩)
  rcases hst with ⟨h1, _⟩ | ⟨h1, _⟩ <;> omega

/-- A token outcome whose cursor still holds an error is vacuously
admissible. -/
theorem outcome_err_tok (s : List Char) (i : Nat) (t : Token) (c' : Cursor)
    (h : c'.err ≠ none) : Outcome s i (.tok t) c' :=
  Or.inr (Or.inr ⟨t, rfl, fun hn => absurd hn h⟩)

/-- Any result admitted by the error-persistence lemma is an admissible
outcome. -/
theorem outcome_of_err_loop (s : List Char) (i : Nat) (res : Scanned) (c' : Cursor)
    (h : res = .panicked ∨ (∃ e, res = .fail e) ∨ (∃ t, res = .tok t ∧ c'.err ≠ none)) :
    Outcome s i res c' := by
  rcases h with h | ⟨e, h⟩ | ⟨t, h, he⟩
  · subst h
    exact outcome_panic s i c'
  · subst h
    exact outcome_fail s i e c'
  · subst h
    exact outcome_err_tok s i t c' he

/-- The end-of-input branch in any state other than `Start`, `StringLiteral`
and `SpreadOperator`, with no pending error: the partially accumulated token
is emitted via `current_str` (or the slice panics). -/
theorem scanEof_default_spec (st : State) (tk : Token) (c : Cursor) (i k : Nat)
    (hd1 : st ≠ .start) (hd2 : st ≠ .stringLit) (hd3 : st ≠ .spreadOp)
    (hkind : tk.kind ≠ .Eof) (htidx : tk.index = bytePos c.source i)
    (hcidx : c.index = bytePos c.source i) (herr : c.err = none)
    (hik : i ≤ k) (hr : ReadPos c k) (hkl : k + 1 = c.source.length)
    (res : Scanned) (c' : Cursor)
    (hl : scanEof st tk c = (res, c')) : Outcome c.source i res c' := by
  have main : (match c.err with
      | some e =>
          match c.current_str with
          | (none, c2) => ((.panicked : Scanned), c2)
          | (some s2, c2) => (.fail { e with data := s2 }, c2)
      | none =>
          match c.current_str with
          | (none, c2) => ((.panicked : Scanned), c2)
          | (some s2, c2) => (.tok { tk with data := s2 }, c2)) = (res, c') →
      Outcome c.source i res c' := by
    intro hm
    rw [herr] at hm
    rcases current_str_spec c i k hcidx hik hr with
      ⟨c3, hcs, hsrc3, herr3⟩ | ⟨c3, hcs, hsrc3, herr3, hdisj⟩
    · rw [hcs] at hm
      dsimp only at hm
      simp only [Prod.mk.injEq] at hm
      obtain ⟨h3, h4⟩ := hm
      subst h3
      exact outcome_panic _ i c'
    · rw [hcs] at hm
      dsimp only at hm
      simp only [Prod.mk.injEq] at hm
      obtain ⟨h3, h4⟩ := hm
      subst h3
      subst h4
      rcases hdisj with ⟨h5, _⟩ | ⟨h5, hex⟩
      · omega
      · exact outcome_tok _ i (k + 1) _ c3 hkind htidx hsrc3 (by omega) rfl
          (Or.inr ⟨h5, hex⟩)
  cases st with
  | start => exact absurd rfl hd1
  | stringLit => exact absurd rfl hd2
  | spreadOp => exact absurd rfl hd3
  | ident => exact main hl
  | whitespace => exact main hl
  | stringBackslash => exact main hl
  | intLit => exact main hl
  | floatLit => exact main hl
  | exponentLit => exact main hl
  | comment => exact main hl
  | plusMinus => exact main hl

set_option maxHeartbeats 1600000 in
/-- Main specification of the `new_advance` loop away from the `Start`
state: from the mid-scan invariant, every result is an admissible outcome
for a token that began at character `i`. -/
theorem scanLoop_spec (fuel : Nat) :
    ∀ st tk c i k res c', MidInv c.source st tk c i k →
      scanLoop fuel st tk c = some (res, c') → Outcome c.source i res c' := by
  induction fuel with
  | zero =>
    intro st tk c i k res c' hinv hl
    simp [scanLoop] at hl
  | succ n ih =>
    intro st tk c i k res c' hinv hl
    obtain ⟨-, hstart, hkind, htidx, hcidx, herr, hik, hr⟩ := hinv
    rw [scanLoop] at hl
    rcases bump_readPos c k hr with ⟨h2, c2, hbump, hsrc2, herr2, hidx2, hrp2⟩ | ⟨hkl, hbump⟩
    · rw [hbump] at hl
      dsimp only at hl
      have hcidx2 : c2.index = bytePos c2.source i := by
        rw [hidx2, hsrc2]
        exact hcidx
      have htidx2 : tk.index = bytePos c2.source i := by
        rw [hsrc2]
        exact htidx
      have herr2n : c2.err = none := by
        rw [herr2]
        exact herr
      rw [← hsrc2]
      cases st with
      | start => exact absurd rfl hstart
      | ident =>
        obtain ⟨c3, hps, hsrc3, herr3, hbp3⟩ :=
          prev_str_spec c2 i (k + 1) hcidx2 (by omega) hrp2
        dsimp only [scanStep] at hl
        rw [hps] at hl
        split_ifs at hl
        · dsimp only at hl
          exact ih _ _ _ i (k + 1) _ _
            ⟨rfl, by decide, hkind, htidx2, hcidx2, herr2n, by omega, hrp2⟩ hl
        · dsimp only at hl
          rw [finalizeToken_none _ _ (by rw [herr3]; exact herr2n)] at hl
          simp only [Option.some.injEq, Prod.mk.injEq] at hl
          obtain ⟨h3, h4⟩ := hl
          subst h3
          subst h4
          exact outcome_tok _ i (k + 1) _ _ hkind htidx2 hsrc3 (by omega) rfl
            (Or.inl ⟨hrp2.2.2.2, hbp3⟩)
      | whitespace =>
        obtain ⟨c3, hps, hsrc3, herr3, hbp3⟩ :=
          prev_str_spec c2 i (k + 1) hcidx2 (by omega) hrp2
        dsimp only [scanStep] at hl
        rw [hps] at hl
        split_ifs at hl
        · dsimp only at hl
          exact ih _ _ _ i (k + 1) _ _
            ⟨rfl, by decide, hkind, htidx2, hcidx2, herr2n, by omega, hrp2⟩ hl
        · dsimp only at hl
          rw [finalizeToken_none _ _ (by rw [herr3]; exact herr2n)] at hl
          simp only [Option.some.injEq, Prod.mk.injEq] at hl
          obtain ⟨h3, h4⟩ := hl
          subst h3
          subst h4
          exact outcome_tok _ i (k + 1) _ _ hkind htidx2 hsrc3 (by omega) rfl
            (Or.inl ⟨hrp2.2.2.2, hbp3⟩)
      | stringLit =>
        dsimp only [scanStep] at hl
        split_ifs at hl
        · rcases current_str_spec c2 i (k + 1) hcidx2 (by omega) hrp2 with
            ⟨c3, hcs, hsrc3, herr3⟩ | ⟨c3, hcs, hsrc3, herr3, hdisj⟩
          · rw [hcs] at hl
            dsimp only at hl
            simp only [Option.some.injEq, Prod.mk.injEq] at hl
            obtain ⟨h3, h4⟩ := hl
            subst h3
            exact outcome_panic _ i c'
          · rw [hcs] at hl
            dsimp only at hl
            rw [finalizeToken_none _ _ (by rw [herr3]; exact herr2n)] at hl
            simp only [Option.some.injEq, Prod.mk.injEq] at hl
            obtain ⟨h3, h4⟩ := hl
            subst h3
            subst h4
            exact outcome_tok _ i (k + 2) _ _ hkind htidx2 hsrc3 (by omega) rfl hdisj
        · rcases hdp : (c2.drain).prev_str with ⟨odp, c4⟩
          rw [hdp] at hl
          cases odp with
          | none =>
            dsimp only at hl
            simp only [Option.some.injEq, Prod.mk.injEq] at hl
            obtain ⟨h3, h4⟩ := hl
            subst h3
            exact outcome_panic _ i c'
          | some s4 =>
            dsimp only at hl
            rw [finalizeToken_some _ _ _ rfl] at hl
            simp only [Option.some.injEq, Prod.mk.injEq] at hl
            obtain ⟨h3, h4⟩ := hl
            subst h3
            exact outcome_fail _ i _ c'
        · dsimp only at hl
          exact ih _ _ _ i (k + 1) _ _
            ⟨rfl, by decide, hkind, htidx2, hcidx2, herr2n, by omega, hrp2⟩ hl
        · dsimp only at hl
          exact ih _ _ _ i (k + 1) _ _
            ⟨rfl, by decide, hkind, htidx2, hcidx2, herr2n, by omega, hrp2⟩ hl
        · rcases current_str_spec c2 i (k + 1) hcidx2 (by omega) hrp2 with
            ⟨c3, hcs, hsrc3, herr3⟩ | ⟨c3, hcs, hsrc3, herr3, hdisj⟩
          · rw [hcs] at hl
            dsimp only at hl
            simp only [Option.some.injEq, Prod.mk.injEq] at hl
            obtain ⟨h3, h4⟩ := hl
            subst h3
            exact outcome_panic _ i c'
          · rw [hcs] at hl
            dsimp only at hl
            rw [finalizeToken_none _ _ (by rw [herr3]; exact herr2n)] at hl
            simp only [Option.some.injEq, Prod.mk.injEq] at hl
            obtain ⟨h3, h4⟩ := hl
            subst h3
            subst h4
            exact outcome_tok _ i (k + 2) _ _ hkind htidx2 hsrc3 (by omega) rfl hdisj
      | stringBackslash =>
        dsimp only [scanStep] at hl
        split_ifs at hl
        · dsimp only at hl
          exact ih _ _ _ i (k + 1) _ _
            ⟨rfl, by decide, hkind, htidx2, hcidx2, herr2n, by omega, hrp2⟩ hl
        · dsimp only at hl
          exact ih _ _ _ i (k + 1) _ _
            ⟨rfl, by decide, hkind, htidx2, hcidx2, herr2n, by omega, hrp2⟩ hl
        · dsimp only at hl
          exact outcome_of_err_loop _ _ _ _
            (scanLoop_err n _ _ _ _ _ (by simp [Cursor.add_err]) hl)
      | intLit =>
        obtain ⟨c3, hps, hsrc3, herr3, hbp3⟩ :=
          prev_str_spec c2 i (k + 1) hcidx2 (by omega) hrp2
        dsimp only [scanStep] at hl
        rw [hps] at hl
        split_ifs at hl
        · dsimp only at hl
          exact ih _ _ _ i (k + 1) _ _
            ⟨rfl, by decide, hkind, htidx2, hcidx2, herr2n, by omega, hrp2⟩ hl
        · dsimp only at hl
          refine ih _ _ _ i (k + 1) _ _ ?_ hl
          exact ⟨rfl, by decide, fun hcon => TokenKind.noConfusion hcon,
            htidx2, hcidx2, herr2n, by omega, hrp2⟩
        · dsimp only at hl
          refine ih _ _ _ i (k + 1) _ _ ?_ hl
          exact ⟨rfl, by decide, fun hcon => TokenKind.noConfusion hcon,
            htidx2, hcidx2, herr2n, by omega, hrp2⟩
        · dsimp only at hl
          rw [finalizeToken_none _ _ (by rw [herr3]; exact herr2n)] at hl
          simp only [Option.some.injEq, Prod.mk.injEq] at hl
          obtain ⟨h3, h4⟩ := hl
          subst h3
          subst h4
          exact outcome_tok _ i (k + 1) _ _ hkind htidx2 hsrc3 (by omega) rfl
            (Or.inl ⟨hrp2.2.2.2, hbp3⟩)
      | floatLit =>
        obtain ⟨c3, hps, hsrc3, herr3, hbp3⟩ :=
          prev_str_spec c2 i (k + 1) hcidx2 (by omega) hrp2
        dsimp only [scanStep] at hl
        rw [hps] at hl
        split_ifs at hl
        · dsimp only at hl
          exact ih _ _ _ i (k + 1) _ _
            ⟨rfl, by decide, hkind, htidx2, hcidx2, herr2n, by omega, hrp2⟩ hl
        · dsimp only at hl
          exact outcome_of_err_loop _ _ _ _
            (scanLoop_err n _ _ _ _ _ (by simp [Cursor.add_err]) hl)
        · dsimp only at hl
          exact ih _ _ _ i (k + 1) _ _
            ⟨rfl, by decide, hkind, htidx2, hcidx2, herr2n, by omega, hrp2⟩ hl
        · dsimp only at hl
          rw [finalizeToken_none _ _ (by rw [herr3]; exact herr2n)] at hl
          simp only [Option.some.injEq, Prod.mk.injEq] at hl
          obtain ⟨h3, h4⟩ := hl
          subst h3
          subst h4
          exact outcome_tok _ i (k + 1) _ _ hkind htidx2 hsrc3 (by omega) rfl
            (Or.inl ⟨hrp2.2.2.2, hbp3⟩)
      | exponentLit =>
        dsimp only [scanStep] at hl
        split_ifs at hl
        · dsimp only at hl
          exact ih _ _ _ i (k + 1) _ _
            ⟨rfl, by decide, hkind, htidx2, hcidx2, herr2n, by omega, hrp2⟩ hl
        · dsimp only at hl
          exact ih _ _ _ i (k + 1) _ _
            ⟨rfl, by decide, hkind, htidx2, hcidx2, herr2n, by omega, hrp2⟩ hl
        · rcases hcs : c2.current_str with ⟨ocs, c3⟩
          rw [hcs] at hl
          cases ocs with
          | none =>
            dsimp only at hl
            simp only [Option.some.injEq, Prod.mk.injEq] at hl
            obtain ⟨h3, h4⟩ := hl
            subst h3
            exact outcome_panic _ i c'
          | some s3 =>
            dsimp only at hl
            simp only [Option.some.injEq, Prod.mk.injEq] at hl
            obtain ⟨h3, h4⟩ := hl
            subst h3
            exact outcome_fail _ i _ c'
      | spreadOp =>
        dsimp only [scanStep] at hl
        split_ifs at hl
        · rcases current_str_spec c2 i (k + 1) hcidx2 (by omega) hrp2 with
            ⟨c3, hcs, hsrc3, herr3⟩ | ⟨c3, hcs, hsrc3, herr3, hdisj⟩
          · rw [hcs] at hl
            dsimp only at hl
            simp only [Option.some.injEq, Prod.mk.injEq] at hl
            obtain ⟨h3, h4⟩ := hl
            subst h3
            exact outcome_panic _ i c'
          · rw [hcs] at hl
            dsimp only at hl
            simp only [Option.some.injEq, Prod.mk.injEq] at hl
            obtain ⟨h3, h4⟩ := hl
            subst h3
            subst h4
            exact outcome_tok _ i (k + 2) _ _ hkind htidx2 hsrc3 (by omega) rfl hdisj
        · dsimp only at hl
          exact ih _ _ _ i (k + 1) _ _
            ⟨rfl, by decide, hkind, htidx2, hcidx2, herr2n, by omega, hrp2⟩ hl
        · rcases hcs : c2.current_str with ⟨ocs, c3⟩
          rw [hcs] at hl
          cases ocs with
          | none =>
            dsimp only at hl
            simp only [Option.some.injEq, Prod.mk.injEq] at hl
            obtain ⟨h3, h4⟩ := hl
            subst h3
            exact outcome_panic _ i c'
          | some s3 =>
            dsimp only at hl
            exact outcome_of_err_loop _ _ _ _
              (scanLoop_err n _ _ _ _ _ (by simp [Cursor.add_err]) hl)
      | plusMinus =>
        dsimp only [scanStep] at hl
        split_ifs at hl
        · dsimp only at hl
          exact ih _ _ _ i (k + 1) _ _
            ⟨rfl, by decide, hkind, htidx2, hcidx2, herr2n, by omega, hrp2⟩ hl
        · rcases hcs : c2.current_str with ⟨ocs, c3⟩
          rw [hcs] at hl
          cases ocs with
          | none =>
            dsimp only at hl
            simp only [Option.some.injEq, Prod.mk.injEq] at hl
            obtain ⟨h3, h4⟩ := hl
            subst h3
            exact outcome_panic _ i c'
          | some s3 =>
            dsimp only at hl
            simp only [Option.some.injEq, Prod.mk.injEq] at hl
            obtain ⟨h3, h4⟩ := hl
            subst h3
            exact outcome_fail _ i _ c'
      | comment =>
        dsimp only [scanStep] at hl
        split_ifs at hl
        · rcases current_str_spec c2 i (k + 1) hcidx2 (by omega) hrp2 with
            ⟨c3, hcs, hsrc3, herr3⟩ | ⟨c3, hcs, hsrc3, herr3, hdisj⟩
          · rw [hcs] at hl
            dsimp only at hl
            simp only [Option.some.injEq, Prod.mk.injEq] at hl
            obtain ⟨h3, h4⟩ := hl
            subst h3
            exact outcome_panic _ i c'
          · rw [hcs] at hl
            dsimp only at hl
            rw [finalizeToken_none _ _ (by rw [herr3]; exact herr2n)] at hl
            simp only [Option.some.injEq, Prod.mk.injEq] at hl
            obtain ⟨h3, h4⟩ := hl
            subst h3
            subst h4
            exact outcome_tok _ i (k + 2) _ _ hkind htidx2 hsrc3 (by omega) rfl hdisj
        · dsimp only at hl
          exact ih _ _ _ i (k + 1) _ _
            ⟨rfl, by decide, hkind, htidx2, hcidx2, herr2n, by omega, hrp2⟩ hl
    · rw [hbump] at hl
      dsimp only at hl
      cases st with
      | start => exact absurd rfl hstart
      | stringLit =>
        dsimp only [scanEof] at hl
        simp only [Option.some.injEq, Prod.mk.injEq] at hl
        obtain ⟨h3, h4⟩ := hl
        subst h3
        exact outcome_fail _ i _ c'
      | spreadOp =>
        dsimp only [scanEof] at hl
        rcases hcs : c.current_str with ⟨ocs, c3⟩
        rw [hcs] at hl
        cases ocs with
        | none =>
          dsimp only at hl
          simp only [Option.some.injEq, Prod.mk.injEq] at hl
          obtain ⟨h3, h4⟩ := hl
          subst h3
          exact outcome_panic _ i c'
        | some s3 =>
          dsimp only at hl
          simp only [Option.some.injEq, Prod.mk.injEq] at hl
          obtain ⟨h3, h4⟩ := hl
          subst h3
          exact outcome_fail _ i _ c'
      | ident =>
        exact scanEof_default_spec _ _ c i k (by decide) (by decide) (by decide)
          hkind htidx hcidx herr hik hr hkl res c' (Option.some.inj hl)
      | whitespace =>
        exact scanEof_default_spec _ _ c i k (by decide) (by decide) (by decide)
          hkind htidx hcidx herr hik hr hkl res c' (Option.some.inj hl)
      | stringBackslash =>
        exact scanEof_default_spec _ _ c i k (by decide) (by decide) (by decide)
          hkind htidx hcidx herr hik hr hkl res c' (Option.some.inj hl)
      | intLit =>
        exact scanEof_default_spec _ _ c i k (by decide) (by decide) (by decide)
          hkind htidx hcidx herr hik hr hkl res c' (Option.some.inj hl)
      | floatLit =>
        exact scanEof_default_spec _ _ c i k (by decide) (by decide) (by decide)
          hkind htidx hcidx herr hik hr hkl res c' (Option.some.inj hl)
      | exponentLit =>
        exact scanEof_default_spec _ _ c i k (by decide) (by decide) (by decide)
          hkind htidx hcidx herr hik hr hkl res c' (Option.some.inj hl)
      | comment =>
        exact scanEof_default_spec _ _ c i k (by decide) (by decide) (by decide)
          hkind htidx hcidx herr hik hr hkl res c' (Option.some.inj hl)
      | plusMinus =>
        exact scanEof_default_spec _ _ c i k (by decide) (by decide) (by decide)
          hkind htidx hcidx herr hik hr hkl res c' (Option.some.inj hl)

set_option maxHeartbeats 1600000 in
/-- `punctKind` never yields the `Eof` kind. -/
theorem punctKind_ne_eof (ch : Char) (k : TokenKind) (h : punctKind ch = some k) :
    k ≠ .Eof := by
  unfold punctKind at h
  by_cases hc0 : (ch == '!') = true
  · rw [if_pos hc0] at h
    injection h with h2
    subst h2
    decide
  · rw [if_neg hc0] at h
    by_cases hc1 : (ch == '$') = true
    · rw [if_pos hc1] at h
      injection h with h2
      subst h2
      decide
    · rw [if_neg hc1] at h
      by_cases hc2 : (ch == '&') = true
      · rw [if_pos hc2] at h
        injection h with h2
        subst h2
        decide
      · rw [if_neg hc2] at h
        by_cases hc3 : (ch == '(') = true
        · rw [if_pos hc3] at h
          injection h with h2
          subst h2
          decide
        · rw [if_neg hc3] at h
          by_cases hc4 : (ch == ')') = true
          · rw [if_pos hc4] at h
            injection h with h2
            subst h2
            decide
          · rw [if_neg hc4] at h
            by_cases hc5 : (ch == ':') = true
            · rw [if_pos hc5] at h
              injection h with h2
              subst h2
              decide
            · rw [if_neg hc5] at h
              by_cases hc6 : (ch == ',') = true
              · rw [if_pos hc6] at h
                injection h with h2
                subst h2
                decide
              · rw [if_neg hc6] at h
                by_cases hc7 : (ch == '=') = true
                · rw [if_pos hc7] at h
                  injection h with h2
                  subst h2
                  decide
                · rw [if_neg hc7] at h
                  by_cases hc8 : (ch == '@') = true
                  · rw [if_pos hc8] at h
                    injection h with h2
                    subst h2
                    decide
                  · rw [if_neg hc8] at h
                    by_cases hc9 : (ch == '[') = true
                    · rw [if_pos hc9] at h
                      injection h with h2
                      subst h2
                      decide
                    · rw [if_neg hc9] at h
                      by_cases hc10 : (ch == ']') = true
                      · rw [if_pos hc10] at h
                        injection h with h2
                        subst h2
                        decide
                      · rw [if_neg hc10] at h
                        by_cases hc11 : (ch == '{') = true
                        · rw [if_pos hc11] at h
                          injection h with h2
                          subst h2
                          decide
                        · rw [if_neg hc11] at h
                          by_cases hc12 : (ch == '|') = true
                          · rw [if_pos hc12] at h
                            injection h with h2
                            subst h2
                            decide
                          · rw [if_neg hc12] at h
                            by_cases hc13 : (ch == '}') = true
                            · rw [if_pos hc13] at h
                              injection h with h2
                              subst h2
                              decide
                            · rw [if_neg hc13] at h
                              exact Option.noConfusion h

/-- One full scanner invocation from a well-formed between-pass cursor with
an empty error slot: an admissible outcome for a token starting at
character `i`, or the `Eof` token on the empty input. -/
theorem new_advance_spec (c : Cursor) (i : Nat) (fuel : Nat) (res : Scanned) (c' : Cursor)
    (hb : BetweenPass c i) (he : c.err = none)
    (h : new_advance c fuel = some (res, c')) :
    Outcome c.source i res c' ∨
    (res = .tok ⟨.Eof, eofData, 1⟩ ∧ c' = c ∧ i = 0 ∧ c.source = []) := by
  cases fuel with
  | zero =>
    unfold new_advance at h
    simp [scanLoop] at h
  | succ n =>
    unfold new_advance at h
    rw [scanLoop] at h
    by_cases hi : i < c.source.length
    · obtain ⟨c2, hbump, hsrc2, herr2, hidx2, hrp2⟩ := bump_between c i hb hi
      rw [hbump] at h
      dsimp only at h
      have hcidx2 : c2.index = bytePos c2.source i := by
        rw [hidx2, hsrc2]
        exact hb.1
      have htidx2 : (({ Token.new TokenKind.Eof eofData with index := c.index } : Token)).index
          = bytePos c2.source i := by
        rw [hsrc2]
        exact hb.1
      have herr2n : c2.err = none := by
        rw [herr2]
        exact he
      refine Or.inl ?_
      rw [← hsrc2]
      dsimp only [scanStep, punctTok] at h
      split_ifs at h
      · dsimp only at h
        refine scanLoop_spec n _ _ _ i i _ _ ?_ h
        exact ⟨rfl, by decide, fun hcon => TokenKind.noConfusion hcon,
           htidx2, hcidx2, herr2n, Nat.le_refl i, hrp2⟩
      · dsimp only at h
        refine scanLoop_spec n _ _ _ i i _ _ ?_ h
        exact ⟨rfl, by decide, fun hcon => TokenKind.noConfusion hcon,
           htidx2, hcidx2, herr2n, Nat.le_refl i, hrp2⟩
      · dsimp only at h
        refine scanLoop_spec n _ _ _ i i _ _ ?_ h
        exact ⟨rfl, by decide, fun hcon => TokenKind.noConfusion hcon,
           htidx2, hcidx2, herr2n, Nat.le_refl i, hrp2⟩
      · dsimp only at h
        refine scanLoop_spec n _ _ _ i i _ _ ?_ h
        exact ⟨rfl, by decide, fun hcon => TokenKind.noConfusion hcon,
           htidx2, hcidx2, herr2n, Nat.le_refl i, hrp2⟩
      · dsimp only at h
        refine scanLoop_spec n _ _ _ i i _ _ ?_ h
        exact ⟨rfl, by decide, fun hcon => TokenKind.noConfusion hcon,
           htidx2, hcidx2, herr2n, Nat.le_refl i, hrp2⟩
      · dsimp only at h
        refine scanLoop_spec n _ _ _ i i _ _ ?_ h
        exact ⟨rfl, by decide, fun hcon => TokenKind.noConfusion hcon,
           htidx2, hcidx2, herr2n, Nat.le_refl i, hrp2⟩
      · dsimp only at h
        refine scanLoop_spec n _ _ _ i i _ _ ?_ h
        exact ⟨rfl, by decide, fun hcon => TokenKind.noConfusion hcon,
           htidx2, hcidx2, herr2n, Nat.le_refl i, hrp2⟩
      · rcases hpk : punctKind (c.source.get ⟨i, hi⟩) with _ | kd
        · rw [hpk] at h
          dsimp only at h
          simp only [Option.some.injEq, Prod.mk.injEq] at h
          obtain ⟨h3, h4⟩ := h
          subst h3
          exact outcome_fail _ i _ c'
        · rw [hpk] at h
          dsimp only at h
          rcases current_str_spec c2 i i hcidx2 (Nat.le_refl i) hrp2 with
            ⟨c3, hcs, hsrc3, herr3⟩ | ⟨c3, hcs, hsrc3, herr3, hdisj⟩
          · rw [hcs] at h
            dsimp only at h
            simp only [Option.some.injEq, Prod.mk.injEq] at h
            obtain ⟨h3, h4⟩ := h
            subst h3
            exact outcome_panic _ i c'
          · rw [hcs] at h
            dsimp only at h
            simp only [Option.some.injEq, Prod.mk.injEq] at h
            obtain ⟨h3, h4⟩ := h
            subst h3
            subst h4
            exact outcome_tok _ i (i + 1) _ _ (punctKind_ne_eof _ _ hpk) htidx2
              hsrc3 (by omega) rfl hdisj
    · obtain ⟨hnil, hi0, hbump, hidx0⟩ := bump_between_empty c i hb hi
      rw [hbump] at h
      dsimp only at h
      dsimp only [scanEof] at h
      simp only [Option.some.injEq, Prod.mk.injEq] at h
      obtain ⟨h3, h4⟩ := h
      subst hi0
      refine Or.inr ⟨?_, h4.symm, rfl, hnil⟩
      rw [← h3, hidx0]
      rfl

/-- One full scanner invocation from the exhausted cursor state: the `Eof`
token, with index one past the last character, which is the byte length of
the input. -/
theorem new_advance_exhausted (c : Cursor) (fuel : Nat) (res : Scanned) (c' : Cursor)
    (hx : Exhausted c)
    (h : new_advance c (fuel + 1) = some (res, c')) :
    res = .tok ⟨.Eof, eofData, c.index + 1⟩ ∧ c' = c ∧
      c.index + 1 = utf8Len c.source := by
  obtain ⟨hpend, hlen, hcons, hidx, hoff, hex⟩ := hx
  obtain ⟨hb, hsz⟩ := hex
  have hutf : utf8Len c.source = bytePos c.source (c.source.length - 1) + 1 := by
    have h2 := bytePos_succ c.source (c.source.length - 1) hb
    have h3 : c.source.length - 1 + 1 = c.source.length := by omega
    rw [h3] at h2
    rw [bytePos_length] at h2
    rw [h2, hsz]
  obtain ⟨ci, co, cs, cc, cp, ce⟩ := c
  dsimp only at hpend hlen hcons hidx hoff hutf hb hsz ⊢
  subst hpend
  subst hcons
  subst hoff
  unfold new_advance at h
  rw [scanLoop] at h
  unfold Cursor.bump Cursor.iterNext at h
  dsimp only at h
  rw [if_neg (by omega), dif_neg (by omega)] at h
  dsimp only [scanEof] at h
  simp only [Option.some.injEq, Prod.mk.injEq] at h
  obtain ⟨h3, h4⟩ := h
  subst h3
  exact ⟨rfl, h4.symm, by omega⟩

/-- `concatData` distributes over append. -/
theorem concatData_append (xs ys : List Token) :
    concatData (xs ++ ys) = concatData xs ++ concatData ys := by
  induction xs with
  | nil => rfl
  | cons t ts ih =>
    show t.data ++ concatData (ts ++ ys) = (t.data ++ concatData ts) ++ concatData ys
    rw [ih, List.append_assoc]

/-- `concatData` of a single token. -/
theorem concatData_single (t : Token) : concatData [t] = t.data := by
  show t.data ++ [] = t.data
  simp

/-- The driver loop only appends to the error list. -/
theorem lexLoop_errors_mono (fuel : Nat) :
    ∀ c toks errs T E fc, lexLoop fuel c toks errs = some (.done T E fc) →
      ∃ tail, E = errs ++ tail := by
  induction fuel with
  | zero =>
    intro c toks errs T E fc h
    simp [lexLoop] at h
  | succ n ih =>
    intro c toks errs T E fc h
    rw [lexLoop] at h
    rcases hna : new_advance c (c.source.length + 2) with _ | ⟨res, c2⟩
    · rw [hna] at h
      simp at h
    · rw [hna] at h
      cases res with
      | panicked =>
        dsimp only at h
        simp at h
      | tok t =>
        dsimp only at h
        by_cases ht : t.kind = TokenKind.Eof
        · rw [if_pos ht] at h
          simp only [Option.some.injEq] at h
          injection h with h1 h2 h3
          exact ⟨[], by rw [← h2]; simp⟩
        · rw [if_neg ht] at h
          exact ih _ _ _ _ _ _ h
      | fail e =>
        dsimp only at h
        obtain ⟨tail, htail⟩ := ih _ _ _ _ _ _ h
        exact ⟨e :: tail, by rw [htail]; simp⟩

/-- Once the cursor error slot is set, a completed run either emitted some
error or finishes with the slot still set. -/
theorem lexLoop_err_slot (fuel : Nat) :
    ∀ c toks errs T E fc, lexLoop fuel c toks errs = some (.done T E fc) →
      c.err ≠ none → E ≠ [] ∨ fc.err ≠ none := by
  induction fuel with
  | zero =>
    intro c toks errs T E fc h hce
    simp [lexLoop] at h
  | succ n ih =>
    intro c toks errs T E fc h hce
    rw [lexLoop] at h
    rcases hna : new_advance c (c.source.length + 2) with _ | ⟨res, c2⟩
    · rw [hna] at h
      simp at h
    · rw [hna] at h
      have hE := scanLoop_err (c.source.length + 2) .start
        { Token.new TokenKind.Eof eofData with index := c.index } c res c2 hce hna
      rcases hE with h1 | ⟨e, h1⟩ | ⟨t, h1, h2⟩
      · subst h1
        dsimp only at h
        simp at h
      · subst h1
        dsimp only at h
        obtain ⟨tail, htail⟩ := lexLoop_errors_mono n _ _ _ _ _ _ h
        left
        rw [htail]
        simp
      · subst h1
        dsimp only at h
        by_cases ht : t.kind = TokenKind.Eof
        · rw [if_pos ht] at h
          simp only [Option.some.injEq] at h
          injection h with h1' h2' h3'
          right
          rw [← h3']
          exact h2
        · rw [if_neg ht] at h
          exact ih _ _ _ _ _ _ h h2

set_option maxHeartbeats 800000 in
/-- Clean-run induction over the driver loop: if the run completes with no
errors emitted and an empty final error slot, the tokens accumulate to the
entire input followed by a final `Eof` whose index is the input's byte
length (or 1 on the empty input). -/
theorem lexLoop_clean (fuel : Nat) :
    ∀ c toks errs T E fc i, lexLoop fuel c toks errs = some (.done T E fc) →
      E = [] → fc.err = none → c.err = none →
      (∀ u ∈ toks, u.kind ≠ TokenKind.Eof) →
      ((BetweenPass c i ∧ concatData toks = c.source.take i) ∨
       (Exhausted c ∧ concatData toks = c.source)) →
      ∃ T₀ t, T = T₀ ++ [t] ∧ t.kind = TokenKind.Eof ∧
        (∀ u ∈ T₀, u.kind ≠ TokenKind.Eof) ∧ concatData T₀ = c.source ∧
        (c.source = [] → t.index = 1) ∧
        (c.source ≠ [] → t.index = utf8Len c.source) := by
  induction fuel with
  | zero =>
    intro c toks errs T E fc i h hE hfc hce htoks hinv
    simp [lexLoop] at h
  | succ n ih =>
    intro c toks errs T E fc i h hE hfc hce htoks hinv
    rw [lexLoop] at h
    rcases hna : new_advance c (c.source.length + 2) with _ | ⟨res, c2⟩
    · rw [hna] at h
      simp at h
    · rw [hna] at h
      rcases hinv with ⟨hbp, hcat⟩ | ⟨hex, hcat⟩
      · rcases new_advance_spec c i _ res c2 hbp hce hna with
          hout | ⟨hres, hc2, hi0, hnil⟩
        · rcases hout with hpan | ⟨e, hfail⟩ | ⟨t, htk, hpay⟩
          · subst hpan
            dsimp only at h
            simp at h
          · subst hfail
            dsimp only at h
            obtain ⟨tail, htail⟩ := lexLoop_errors_mono n _ _ _ _ _ _ h
            rw [hE] at htail
            exact absurd htail.symm (by simp)
          · subst htk
            dsimp only at h
            by_cases hc2e : c2.err = none
            · obtain ⟨hkind, htidx, hsrc2, i', hii', hilen, hdata, hst⟩ := hpay hc2e
              rw [if_neg hkind] at h
              have htoks2 : ∀ u ∈ toks ++ [t], u.kind ≠ TokenKind.Eof := by
                intro u hu
                rcases List.mem_append.mp hu with hu | hu
                · exact htoks u hu
                · rw [List.mem_singleton.mp hu]
                  exact hkind
              have hconc : concatData (toks ++ [t]) = c.source.take i' := by
                rw [concatData_append, concatData_single, hcat, hdata]
                exact take_append_seg c.source i i' (by omega)
              have hinv2 : (BetweenPass c2 i' ∧ concatData (toks ++ [t]) = c2.source.take i') ∨
                  (Exhausted c2 ∧ concatData (toks ++ [t]) = c2.source) := by
                rcases hst with ⟨hlt, hbp2⟩ | ⟨heq, hex2⟩
                · left
                  refine ⟨hbp2, ?_⟩
                  rw [hconc, hsrc2]
                · right
                  refine ⟨hex2, ?_⟩
                  rw [hconc, hsrc2, heq, List.take_length]
              have hrec := ih c2 (toks ++ [t]) errs T E fc i' h hE hfc hc2e htoks2 hinv2
              rw [hsrc2] at hrec
              exact hrec
            · by_cases ht : t.kind = TokenKind.Eof
              · rw [if_pos ht] at h
                simp only [Option.some.injEq] at h
                injection h with h1 h2 h3
                rw [← h3] at hfc
                exact absurd hfc hc2e
              · rw [if_neg ht] at h
                rcases lexLoop_err_slot n _ _ _ _ _ _ h hc2e with h1 | h1
                · exact absurd hE h1
                · exact absurd hfc h1
        · subst hres
          dsimp only at h
          rw [if_pos rfl] at h
          simp only [Option.some.injEq] at h
          injection h with h1 h2 h3
          refine ⟨toks, ⟨.Eof, eofData, 1⟩, h1.symm, rfl, htoks, ?_,
            fun _ => rfl, fun hne => absurd hnil hne⟩
          rw [hcat, hnil]
          simp
      · obtain ⟨hres, hc2, hidx1⟩ :=
          new_advance_exhausted c (c.source.length + 1) res c2 hex hna
        subst hres
        dsimp only at h
        rw [if_pos rfl] at h
        simp only [Option.some.injEq] at h
        injection h with h1 h2 h3
        have hlen := hex.2.1
        refine ⟨toks, ⟨.Eof, eofData, c.index + 1⟩, h1.symm, rfl, htoks, hcat, ?_,
          fun _ => hidx1⟩
        intro hn
        rw [hn] at hlen
        simp at hlen

/-- Master clean-run theorem for `lex`: no errors and an empty final error
slot force the token data to concatenate to the whole input, with the
final `Eof` at the input's byte length (1 for the empty input). -/
theorem lex_clean (s : List Char) (T : List Token) (E : List Error) (fc : Cursor)
    (h : lex s = some (.done T E fc)) (hE : E = []) (hfc : fc.err = none) :
    ∃ T₀ t, T = T₀ ++ [t] ∧ t.kind = TokenKind.Eof ∧
      (∀ u ∈ T₀, u.kind ≠ TokenKind.Eof) ∧ concatData T₀ = s ∧
      (s = [] → t.index = 1) ∧ (s ≠ [] → t.index = utf8Len s) := by
  have h2 := lexLoop_clean (s.length + 2) (Cursor.new s) [] [] T E fc 0 h hE hfc rfl
    (by intro u hu; simp at hu)
    (Or.inl ⟨⟨(bytePos_zero s).symm, Or.inr ⟨rfl, rfl, rfl, rfl⟩⟩, rfl⟩)
  exact h2

/-- C1, amended.  As stated the claim is false (see the counterexample:
with errors present, emitted tokens can skip the bytes a hard error
consumed, so their concatenation need not be a prefix, and a token can
re-cover an error's bytes).  The nearby true statement: whenever
tokenization completes without panic, with an EMPTY error list and an
empty final cursor error slot, the concatenation of the data of all tokens
before the terminal `Eof` equals the ENTIRE input — losslessness holds on
error-free runs. -/
theorem lexer_clean_losslessness :
    ∀ (s : List Char) (T : List Token) (E : List Error) (fc : Cursor),
      lex s = some (.done T E fc) → E = [] → fc.err = none →
      ∃ T₀ t, T = T₀ ++ [t] ∧ t.kind = TokenKind.Eof ∧
        (∀ u ∈ T₀, u.kind ≠ TokenKind.Eof) ∧ concatData T₀ = s := by
  intro s T E fc h hE hfc
  obtain ⟨T₀, t, h1, h2, h3, h4, _, _⟩ := lex_clean s T E fc h hE hfc
  exact ⟨T₀, t, h1, h2, h3, h4⟩

/-- Witness for the clean-run losslessness theorem on the input `{a}`. -/
theorem lexer_clean_losslessness_witness :
    ∃ T₀ t,
      ([⟨.LCurly, [ '{' ], 0⟩, ⟨.Name, [ 'a' ], 1⟩, ⟨.RCurly, [ '}' ], 2⟩,
        ⟨.Eof, eofData, 3⟩] : List Token) = T₀ ++ [t] ∧
      t.kind = TokenKind.Eof ∧ (∀ u ∈ T₀, u.kind ≠ TokenKind.Eof) ∧
      concatData T₀ = ( "\x7ba\x7d".toList) :=
  lexer_clean_losslessness ( "\x7ba\x7d".toList) _ []
    ⟨2, 2, ( "\x7ba\x7d".toList), 3, none, none⟩ (by decide) rfl rfl

/-- C7, amended.  As stated the claim is false (counterexample: input `a`
ends with `Eof` at index 1, not `len + 1 = 2`).  The nearby true
statement: for every input that tokenizes cleanly (no errors, empty final
error slot), the last token is `Eof`, and for nonempty input its index is
the byte length of the input (for the empty input it is 1, matching the
claim's `len + 1` only there). -/
theorem lexer_eof_index :
    ∀ (s : List Char) (T : List Token) (E : List Error) (fc : Cursor),
      lex s = some (.done T E fc) → E = [] → fc.err = none → s ≠ [] →
      ∃ T₀ t, T = T₀ ++ [t] ∧ t.kind = TokenKind.Eof ∧ t.index = utf8Len s := by
  intro s T E fc h hE hfc hs
  obtain ⟨T₀, t, h1, h2, _, _, _, h6⟩ := lex_clean s T E fc h hE hfc
  exact ⟨T₀, t, h1, h2, h6 hs⟩

/-- Witness for the `Eof` index theorem on the input `ab`. -/
theorem lexer_eof_index_witness :
    ∃ T₀ t,
      ([⟨.Name, [ 'a', 'b' ], 0⟩, ⟨.Eof, eofData, 2⟩] : List Token) = T₀ ++ [t] ∧
      t.kind = TokenKind.Eof ∧ t.index = utf8Len ( "ab".toList) :=
  lexer_eof_index ( "ab".toList) _ [] ⟨1, 1, ( "ab".toList), 2, none, none⟩
    (by decide) rfl rfl (by decide)

end ApolloLexer
